import Mathlib

/-
Verification development for the env-compare repository.

The Python sources (src/compare_vars.py, src/compare_tfvars.py) are embedded
shallowly: Python dicts parsed from JSON/HCL/properties files become
association lists with string keys (Python dicts have unique keys and
preserve insertion order), Python lists become Lean lists, and scalars
become a small sum type.  Numeric literals are modelled as integers
(floating-point behaviour is out of scope for every claim considered here).
-/

set_option maxHeartbeats 1000000

/-- ConfigValue models the dynamically shaped values the Python scripts
manipulate: None, booleans, numbers, strings, lists and dicts. -/
inductive ConfigValue where
  | null : ConfigValue
  | bool : Bool → ConfigValue
  | num : Int → ConfigValue
  | str : String → ConfigValue
  | seq : List ConfigValue → ConfigValue
  | map : List (String × ConfigValue) → ConfigValue

mutual

/-- Decidable syntactic equality on ConfigValue (hand-rolled because
deriving does not handle this nested inductive). -/
def cvDecEq : (a b : ConfigValue) → Decidable (a = b)
  | .null, .null => isTrue rfl
  | .bool a, .bool b =>
    match decEq a b with
    | isTrue h => isTrue (by rw [h])
    | isFalse h => isFalse (by intro e; cases e; exact h rfl)
  | .num a, .num b =>
    match decEq a b with
    | isTrue h => isTrue (by rw [h])
    | isFalse h => isFalse (by intro e; cases e; exact h rfl)
  | .str a, .str b =>
    match decEq a b with
    | isTrue h => isTrue (by rw [h])
    | isFalse h => isFalse (by intro e; cases e; exact h rfl)
  | .seq xs, .seq ys =>
    match cvDecEqList xs ys with
    | isTrue h => isTrue (by rw [h])
    | isFalse h => isFalse (by intro e; cases e; exact h rfl)
  | .map xs, .map ys =>
    match cvDecEqEntries xs ys with
    | isTrue h => isTrue (by rw [h])
    | isFalse h => isFalse (by intro e; cases e; exact h rfl)
  | .null, .bool _ => isFalse (by intro h; cases h)
  | .null, .num _ => isFalse (by intro h; cases h)
  | .null, .str _ => isFalse (by intro h; cases h)
  | .null, .seq _ => isFalse (by intro h; cases h)
  | .null, .map _ => isFalse (by intro h; cases h)
  | .bool _, .null => isFalse (by intro h; cases h)
  | .bool _, .num _ => isFalse (by intro h; cases h)
  | .bool _, .str _ => isFalse (by intro h; cases h)
  | .bool _, .seq _ => isFalse (by intro h; cases h)
  | .bool _, .map _ => isFalse (by intro h; cases h)
  | .num _, .null => isFalse (by intro h; cases h)
  | .num _, .bool _ => isFalse (by intro h; cases h)
  | .num _, .str _ => isFalse (by intro h; cases h)
  | .num _, .seq _ => isFalse (by intro h; cases h)
  | .num _, .map _ => isFalse (by intro h; cases h)
  | .str _, .null => isFalse (by intro h; cases h)
  | .str _, .bool _ => isFalse (by intro h; cases h)
  | .str _, .num _ => isFalse (by intro h; cases h)
  | .str _, .seq _ => isFalse (by intro h; cases h)
  | .str _, .map _ => isFalse (by intro h; cases h)
  | .seq _, .null => isFalse (by intro h; cases h)
  | .seq _, .bool _ => isFalse (by intro h; cases h)
  | .seq _, .num _ => isFalse (by intro h; cases h)
  | .seq _, .str _ => isFalse (by intro h; cases h)
  | .seq _, .map _ => isFalse (by intro h; cases h)
  | .map _, .null => isFalse (by intro h; cases h)
  | .map _, .bool _ => isFalse (by intro h; cases h)
  | .map _, .num _ => isFalse (by intro h; cases h)
  | .map _, .str _ => isFalse (by intro h; cases h)
  | .map _, .seq _ => isFalse (by intro h; cases h)
termination_by a _ => sizeOf a

def cvDecEqList : (xs ys : List ConfigValue) → Decidable (xs = ys)
  | [], [] => isTrue rfl
  | [], _ :: _ => isFalse (by intro h; cases h)
  | _ :: _, [] => isFalse (by intro h; cases h)
  | x :: xs, y :: ys =>
    match cvDecEq x y with
    | isTrue h1 =>
      match cvDecEqList xs ys with
      | isTrue h2 => isTrue (by rw [h1, h2])
      | isFalse h2 => isFalse (by intro e; cases e; exact h2 rfl)
    | isFalse h1 => isFalse (by intro e; cases e; exact h1 rfl)
termination_by xs _ => sizeOf xs

def cvDecEqEntries : (xs ys : List (String × ConfigValue)) → Decidable (xs = ys)
  | [], [] => isTrue rfl
  | [], _ :: _ => isFalse (by intro h; cases h)
  | _ :: _, [] => isFalse (by intro h; cases h)
  | (k, v) :: xs, (k1, w) :: ys =>
    match decEq k k1 with
    | isTrue hk =>
      match cvDecEq v w with
      | isTrue h1 =>
        match cvDecEqEntries xs ys with
        | isTrue h2 => isTrue (by rw [hk, h1, h2])
        | isFalse h2 => isFalse (by intro e; cases e; exact h2 rfl)
      | isFalse h1 => isFalse (by intro e; cases e; exact h1 rfl)
    | isFalse hk => isFalse (by intro e; cases e; exact hk rfl)
termination_by xs _ => sizeOf xs

end

instance : DecidableEq ConfigValue := cvDecEq

/-- Dictionary lookup on an association list, returning the value bound to
the first occurrence of the key (Python dict keys are unique). -/
def lookupCV (k : String) : List (String × ConfigValue) → Option ConfigValue
  | [] => none
  | (k1, v) :: rest => if k1 = k then some v else lookupCV k rest

/-- Well-formedness: every dict that occurs in the value has pairwise
distinct keys, as Python dicts always do. -/
inductive WFCV : ConfigValue → Prop where
  | null : WFCV .null
  | bool : ∀ b, WFCV (.bool b)
  | num : ∀ n, WFCV (.num n)
  | str : ∀ s, WFCV (.str s)
  | seq : ∀ xs, (∀ x ∈ xs, WFCV x) → WFCV (.seq xs)
  | map : ∀ xs, (xs.map Prod.fst).Nodup → (∀ p ∈ xs, WFCV p.2) → WFCV (.map xs)

mutual

/-- Python structural equality `==` on parsed values: scalars compare by
value (with the Python quirk that `True == 1` and `False == 0`), lists
compare pointwise in order, dicts compare by key set and per-key values
(for well-formed dicts, equal length plus pointwise containment of the
left entries in the right dict is exactly Python dict equality). -/
def pyEq : ConfigValue → ConfigValue → Bool
  | .null, .null => true
  | .bool a, .bool b => a == b
  | .num a, .num b => a == b
  | .bool a, .num b => (if a then (1 : Int) else 0) == b
  | .num a, .bool b => a == (if b then (1 : Int) else 0)
  | .str a, .str b => a == b
  | .seq xs, .seq ys => pyEqList xs ys
  | .map xs, .map ys => xs.length == ys.length && pyEqEntriesSub xs ys
  | _, _ => false
termination_by a _ => sizeOf a

def pyEqList : List ConfigValue → List ConfigValue → Bool
  | [], [] => true
  | x :: xs, y :: ys => pyEq x y && pyEqList xs ys
  | _, _ => false
termination_by xs _ => sizeOf xs

def pyEqEntriesSub : List (String × ConfigValue) → List (String × ConfigValue) → Bool
  | [], _ => true
  | (k, v) :: xs, ys =>
    (match lookupCV k ys with
     | some w => pyEq v w
     | none => false) && pyEqEntriesSub xs ys
termination_by xs _ => sizeOf xs

end

/-- Python str.lower modelled structurally: lower-case every character
(ASCII case mapping, which is what the compared keys use). -/
def strLower (s : String) : String :=
  String.mk (s.data.map Char.toLower)

/-- Python str.upper modelled structurally. -/
def strUpper (s : String) : String :=
  String.mk (s.data.map Char.toUpper)

/-- Python str.strip modelled structurally: drop whitespace from both
ends. -/
def pyStrip (s : String) : String :=
  String.mk ((((s.data.dropWhile Char.isWhitespace).reverse).dropWhile
    Char.isWhitespace).reverse)

/-- Python str.startswith modelled structurally on the character lists. -/
def pyStartsWith (s pre : String) : Bool :=
  pre.data.isPrefixOf s.data

/-- Splitting a character list on a separator character; the Python
str.split semantics for a one-character separator: empty input gives one
empty field, adjacent separators give empty fields. -/
def splitOnCharAux (c : Char) : List Char → List (List Char)
  | [] => [[]]
  | x :: xs =>
    match splitOnCharAux c xs with
    | [] => [[]]
    | g :: gs => if x = c then [] :: g :: gs else (x :: g) :: gs

/-- Python s.split(sep) for a one-character separator. -/
def pySplit (s : String) (c : Char) : List String :=
  (splitOnCharAux c s.data).map String.mk

/-- Substring search on lists of characters, used to model the Python
expression `needle in haystack` on strings. -/
def isSubstrAux (needle : List Char) : List Char → Bool
  | [] => needle.isEmpty
  | c :: rest => needle.isPrefixOf (c :: rest) || isSubstrAux needle rest

/-- Python `needle in hay` for strings: true iff needle occurs as a
contiguous substring of hay. -/
def strContains (hay needle : String) : Bool :=
  isSubstrAux needle.data hay.data

/-- The fixed vocabulary of environment-correlated key fragments from
src/compare_vars.py (is_environment_specific). -/
def environment_specific_keys : List String :=
  ["account", "region", "profile", "environment", "env", "url", "endpoint",
   "database_name", "bucket_name", "s3", "created", "time", "arn"]

/-- Embedding of is_environment_specific from src/compare_vars.py: the key
is environment specific when its lower-cased form contains one of the
environment indicators or one of the fixed vocabulary terms as a
substring. -/
def is_environment_specific (key env1 env2 : String) : Bool :=
  let environment_indicators : List String :=
    [strLower env1, strLower env2, "prod", "staging", "dev"]
  if environment_indicators.any (fun ind => strContains (strLower key) ind) then
    true
  else if environment_specific_keys.any (fun es => strContains (strLower key) es) then
    true
  else
    false

mutual

/-- Python repr of a parsed value, as produced by str() on containers:
dict and list literals with single-quoted strings inside.  Strings are
rendered without escaping (no claim depends on repr escaping). -/
def pyRepr : ConfigValue → String
  | .null => "None"
  | .bool b => if b then ("True") else ("False")
  | .num n => toString n
  | .str s => "\x27" ++ s ++ "\x27"
  | .seq xs => "[" ++ pyReprList xs ++ "]"
  | .map xs => "\x7b" ++ pyReprEntries xs ++ "\x7d"
termination_by v => sizeOf v

def pyReprList : List ConfigValue → String
  | [] => ""
  | [x] => pyRepr x
  | x :: y :: rest => pyRepr x ++ ", " ++ pyReprList (y :: rest)
termination_by xs => sizeOf xs

def pyReprEntries : List (String × ConfigValue) → String
  | [] => ""
  | [(k, v)] => "\x27" ++ k ++ "\x27: " ++ pyRepr v
  | (k, v) :: p :: rest =>
    "\x27" ++ k ++ "\x27: " ++ pyRepr v ++ ", " ++ pyReprEntries (p :: rest)
termination_by xs => sizeOf xs

end

/-- Python str() of a parsed value as interpolated by an f-string: a str
renders as itself, every other shape renders as its repr. -/
def pyStr : ConfigValue → String
  | .str s => s
  | v => pyRepr v

/-- The nested-key builder of handle_nested_diffs for dict fields:
f-string base_key.k when base_key is non-empty (truthy), else k alone. -/
def nestedKeyDot (base k : String) : String :=
  if base = "" then k else base ++ "." ++ k

/-- The nested-key builder of handle_nested_diffs for list indices:
f-string base_key[i] when base_key is non-empty (truthy), else str(i). -/
def nestedKeyIdx (base : String) (i : Nat) : String :=
  if base = "" then toString i else base ++ "[" ++ toString i ++ "]"

/-- The trailing-element loop of the list branch of handle_nested_diffs:
one entry per index from start onward, each rendering the element of the
longer list wholesale with the given suffix (" was added" on the right,
" was removed" on the left). -/
def extraEntries (base suffix : String) : Nat → List ConfigValue → List String
  | _, [] => []
  | i, v :: vs =>
    (nestedKeyIdx base i ++ ": " ++ pyStr v ++ suffix) :: extraEntries base suffix (i + 1) vs

/-- The second dict loop of handle_nested_diffs: every key of the new dict
that is absent from the old dict yields one "was added" entry. -/
def addedKeyEntries (base : String) (xs ys : List (String × ConfigValue)) : List String :=
  ys.filterMap (fun p =>
    match lookupCV p.1 xs with
    | some _ => none
    | none => some (nestedKeyDot base p.1 ++ ": " ++ pyStr p.2 ++ " was added"))

mutual

/-- Embedding of the recursive helper handle_nested_diffs defined inside
extract_diff in src/compare_vars.py (lines 110-147).  Dispatches on the
shapes of the two values: dict/dict walks keys, list/list walks matching
indices and then trailing extras, string/string compares dot-separated
segments pairwise, anything else emits a single changed entry. -/
def handle_nested_diffs : ConfigValue → ConfigValue → String → List String
  | .map xs, .map ys, base => hndOldEntries ys base xs ++ addedKeyEntries base xs ys
  | .seq xs, .seq ys, base =>
    hndZipped base 0 xs ys ++
    (if xs.length < ys.length then
      extraEntries base (" was added") xs.length (ys.drop xs.length)
     else if ys.length < xs.length then
      extraEntries base (" was removed") ys.length (xs.drop ys.length)
     else [])
  | .str a, .str b, base =>
    ((pySplit a '.').zip (pySplit b '.')).filterMap (fun q =>
      if q.1 = q.2 then none else some (base ++ ": " ++ q.1 ++ " => " ++ q.2))
  | a, b, base => [base ++ ": " ++ pyStr a ++ " => " ++ pyStr b]
termination_by a _ _ => sizeOf a

/-- First dict loop of handle_nested_diffs: for each old entry, recurse
when the key survives with a different value, emit "was removed" when the
key is gone, emit nothing when the values are equal. -/
def hndOldEntries (ys : List (String × ConfigValue)) (base : String) :
    List (String × ConfigValue) → List String
  | [] => []
  | (k, v) :: rest =>
    (match lookupCV k ys with
     | some w => if pyEq v w then [] else handle_nested_diffs v w (nestedKeyDot base k)
     | none => [nestedKeyDot base k ++ ": " ++ pyStr v ++ " was removed"]) ++
    hndOldEntries ys base rest
termination_by xs => sizeOf xs

/-- The enumerate(zip(old, new)) loop of the list branch of
handle_nested_diffs: recurse on each mismatching pair at matching indices
up to the shorter length. -/
def hndZipped (base : String) : Nat → List ConfigValue → List ConfigValue → List String
  | _, [], _ => []
  | _, _ :: _, [] => []
  | i, x :: xs, y :: ys =>
    (if pyEq x y then [] else handle_nested_diffs x y (nestedKeyIdx base i)) ++
    hndZipped base (i + 1) xs ys
termination_by _ xs _ => sizeOf xs

end

/-- Three-way comparison derived from a linear order. -/
def lcmp {α : Type} [LinearOrder α] (a b : α) : Ordering :=
  if a < b then .lt else if b < a then .gt else .eq

/-- Constructor tag, used to order values of different shapes. -/
def tagOf : ConfigValue → Nat
  | .null => 0
  | .bool _ => 1
  | .num _ => 2
  | .str _ => 3
  | .seq _ => 4
  | .map _ => 5

mutual

/-- A total syntactic order on ConfigValue (tag first, then components,
lists lexicographically).  Only used to canonicalise values; it carries no
meaning from the source program. -/
def cmpCV : ConfigValue → ConfigValue → Ordering
  | .null, .null => .eq
  | .bool a, .bool b => lcmp a b
  | .num a, .num b => lcmp a b
  | .str a, .str b => lcmp a b
  | .seq xs, .seq ys => cmpList xs ys
  | .map xs, .map ys => cmpEntries xs ys
  | a, b => lcmp (tagOf a) (tagOf b)
termination_by a _ => sizeOf a

def cmpList : List ConfigValue → List ConfigValue → Ordering
  | [], [] => .eq
  | [], _ :: _ => .lt
  | _ :: _, [] => .gt
  | x :: xs, y :: ys =>
    match cmpCV x y with
    | .eq => cmpList xs ys
    | o => o
termination_by xs _ => sizeOf xs

def cmpEntries : List (String × ConfigValue) → List (String × ConfigValue) → Ordering
  | [], [] => .eq
  | [], _ :: _ => .lt
  | _ :: _, [] => .gt
  | (k, v) :: xs, (k1, w) :: ys =>
    match lcmp k k1 with
    | .eq =>
      match cmpCV v w with
      | .eq => cmpEntries xs ys
      | o => o
    | o => o
termination_by xs _ => sizeOf xs

end

/-- Single dict-entry comparison: key first, then value. -/
def cmpEntry (p q : String × ConfigValue) : Ordering :=
  match lcmp p.1 q.1 with
  | .eq => cmpCV p.2 q.2
  | o => o

/-- Boolean not-greater-than relation on values, fed to mergeSort. -/
def cvLEb (a b : ConfigValue) : Bool :=
  match cmpCV a b with
  | .gt => false
  | _ => true

/-- Boolean not-greater-than relation on dict entries, fed to mergeSort. -/
def entryLEb (p q : String × ConfigValue) : Bool :=
  match cmpEntry p q with
  | .gt => false
  | _ => true

mutual

/-- Canonical form of a value under DeepDiff(ignore_order=True) equality
with the library default report_repetition=False: scalars unchanged, list
elements canonicalised, DEDUPLICATED and sorted (deepdiff hashes the
items of an iterable and compares the hash sets, so both the order and
the repetition counts of list elements are ignored), and dict entries
canonicalised and sorted by key.  Two values have equal canonical forms
exactly when DeepDiff with ignore_order=True reports no difference
between them. -/
def canon : ConfigValue → ConfigValue
  | .null => .null
  | .bool b => .bool b
  | .num n => .num n
  | .str s => .str s
  | .seq xs => .seq (List.mergeSort ((canonList xs).dedup) cvLEb)
  | .map xs => .map (List.mergeSort (canonEntries xs) entryLEb)
termination_by v => sizeOf v

def canonList : List ConfigValue → List ConfigValue
  | [] => []
  | x :: xs => canon x :: canonList xs
termination_by xs => sizeOf xs

def canonEntries : List (String × ConfigValue) → List (String × ConfigValue)
  | [] => []
  | (k, v) :: xs => (k, canon v) :: canonEntries xs
termination_by xs => sizeOf xs

end

/-- Embedding of the emptiness of DeepDiff(value1, value2,
ignore_order=True) as used by compare_tfvars_data, with the library
default report_repetition=False: the diff is empty iff the two values
agree up to dict key order and up to the SET of deeply-distinct list
elements (order and repetition counts both ignored; for example the
library reports no difference between [1,2,3] and [1,2,3,3]), i.e. iff
their canonical forms coincide. -/
def deepDiffEmpty (a b : ConfigValue) : Bool :=
  decide (canon a = canon b)

namespace CompareTfvars

/-- The fixed vocabulary of environment-correlated key fragments from
src/compare_tfvars.py (module-level environment_specific_keys). -/
def environment_specific_keys : List String :=
  ["uri", "environment", "env", "url", "endpoint", "life_cycle", "arn"]

/-- Embedding of is_environment_specific from src/compare_tfvars.py, whose
indicator list uses the fixed tokens acnt, acpt, cont, dev1, prod. -/
def is_environment_specific (key env1 env2 : String) : Bool :=
  let environment_indicators : List String :=
    [strLower env1, strLower env2, "acnt", "acpt", "cont", "dev1", "prod"]
  if environment_indicators.any (fun ind => strContains (strLower key) ind) then
    true
  else if environment_specific_keys.any (fun es => strContains (strLower key) es) then
    true
  else
    false

end CompareTfvars

/-- The sentinel produced by Python data.get(key, "undefined") when the
key is missing.  It is an ordinary string value, so a key genuinely bound
to the string "undefined" is indistinguishable from an absent key. -/
def undefinedSentinel : ConfigValue := .str ("undefined")

/-- One comparison row of compare_tfvars_data.  The source stores value1
and value2 as json.dumps(value, indent=2) strings; the serialisation is
presentation-only, so the row keeps the values themselves. -/
structure ComparisonRow where
  key : String
  value1 : ConfigValue
  value2 : ConfigValue
  exact_diff : String
  row_class : String
  status : String
deriving DecidableEq

/-- The summary dict accumulated by compare_tfvars_data and
compare_properties_data. -/
structure Summary where
  equal : Nat
  undefined : Nat
  red : Nat
  blue : Nat
deriving DecidableEq

/-- The loop body of compare_tfvars_data for one key (lines 183-227 of
src/compare_vars.py).  extractDiff stands for the composite
extract_diff(DeepDiff(value1, value2, ignore_order=True), value1, value2,
key_path): its output only ever lands in the exact_diff text, so the
classification logic is independent of it. -/
def rowFor (extractDiff : String → ConfigValue → ConfigValue → String)
    (data1 data2 : List (String × ConfigValue)) (env1 env2 key : String) :
    ComparisonRow :=
  let value1 := (lookupCV key data1).getD undefinedSentinel
  let value2 := (lookupCV key data2).getD undefinedSentinel
  if !pyEq value1 undefinedSentinel && !pyEq value2 undefinedSentinel then
    if deepDiffEmpty value1 value2 then
      { key := key, value1 := value1, value2 := value2, exact_diff := "",
        row_class := "equal", status := "Equal" }
    else
      let row_class := if is_environment_specific key env1 env2 then ("blue") else ("red")
      let status :=
        if row_class = "blue" then ("Values differ as expected for environments")
        else ("Unexpected difference, please review")
      { key := key, value1 := value1, value2 := value2,
        exact_diff := extractDiff key value1 value2,
        row_class := row_class, status := status }
  else if pyEq value1 undefinedSentinel then
    { key := key, value1 := value1, value2 := value2,
      exact_diff := key ++ " is not defined in " ++ strUpper env1,
      row_class := "yellow", status := "Not defined in " ++ strUpper env1 }
  else
    { key := key, value1 := value1, value2 := value2,
      exact_diff := key ++ " is not defined in " ++ strUpper env2,
      row_class := "yellow", status := "Not defined in " ++ strUpper env2 }

/-- One summary increment, keyed by the row class chosen in the loop. -/
def summaryStep (s : Summary) (r : ComparisonRow) : Summary :=
  if r.row_class = "equal" then { s with equal := s.equal + 1 }
  else if r.row_class = "yellow" then { s with undefined := s.undefined + 1 }
  else if r.row_class = "blue" then { s with blue := s.blue + 1 }
  else { s with red := s.red + 1 }

/-- The summary tally over all rows of one comparison pass. -/
def tallySummary (rows : List ComparisonRow) : Summary :=
  rows.foldl summaryStep { equal := 0, undefined := 0, red := 0, blue := 0 }

/-- Boolean case-insensitive ordering on keys: Python
sorted(keys, key=str.lower). -/
def lowerLEb (a b : String) : Bool :=
  decide (strLower a ≤ strLower b)

/-- Embedding of compare_tfvars_data (src/compare_vars.py lines 172-228):
drop the reserved compareIdentifier key from both documents, take the
union of the remaining top-level keys, sort it case-insensitively, and
produce one classified row per key plus the summary tally.  The Python
set union carries no order of its own; the embedding dedups the
concatenated key lists, which produces one canonical order among keys
that tie case-insensitively. -/
def compare_tfvars_data (extractDiff : String → ConfigValue → ConfigValue → String)
    (data1 data2 : List (String × ConfigValue)) (env1 env2 : String) :
    List ComparisonRow × Summary :=
  let data1_filtered := data1.filter (fun p => p.1 != "compareIdentifier")
  let data2_filtered := data2.filter (fun p => p.1 != "compareIdentifier")
  let all_keys :=
    (data1_filtered.map Prod.fst ++ data2_filtered.map Prod.fst).dedup
  let sorted_keys := List.mergeSort all_keys lowerLEb
  let rows := sorted_keys.map (rowFor extractDiff data1_filtered data2_filtered env1 env2)
  (rows, tallySummary rows)

/-- Lookup in a parsed properties document. -/
def lookupStr (k : String) : List (String × String) → Option String
  | [] => none
  | (k1, v) :: rest => if k1 = k then some v else lookupStr k rest

/-- One comparison row of compare_properties_data; properties values are
plain strings. -/
structure PropRow where
  key : String
  value1 : String
  value2 : String
  exact_diff : String
  row_class : String
  status : String
deriving DecidableEq

/-- The loop body of compare_properties_data for one key (lines 241-286
of src/compare_vars.py).  DeepDiff of two strings is empty exactly when
they are equal, so the Equal branch is taken iff value1 = value2. -/
def propRowFor (extractDiff : String → String → String → String)
    (data1 data2 : List (String × String)) (env1 env2 key : String) : PropRow :=
  let value1 := (lookupStr key data1).getD ("undefined")
  let value2 := (lookupStr key data2).getD ("undefined")
  if value1 != "undefined" && value2 != "undefined" then
    if value1 = value2 then
      { key := key, value1 := value1, value2 := value2, exact_diff := "",
        row_class := "equal", status := "Equal" }
    else
      let row_class := if is_environment_specific key env1 env2 then ("blue") else ("red")
      let status :=
        if row_class = "blue" then ("Values differ as expected for environments")
        else ("Unexpected difference, please review")
      { key := key, value1 := value1, value2 := value2,
        exact_diff := extractDiff key value1 value2,
        row_class := row_class, status := status }
  else if value1 == "undefined" then
    { key := key, value1 := value1, value2 := value2,
      exact_diff := key ++ " is not defined in " ++ strUpper env1,
      row_class := "yellow", status := "Not defined in " ++ strUpper env1 }
  else
    { key := key, value1 := value1, value2 := value2,
      exact_diff := key ++ " is not defined in " ++ strUpper env2,
      row_class := "yellow", status := "Not defined in " ++ strUpper env2 }

/-- Summary increment for properties rows. -/
def propSummaryStep (s : Summary) (r : PropRow) : Summary :=
  if r.row_class = "equal" then { s with equal := s.equal + 1 }
  else if r.row_class = "yellow" then { s with undefined := s.undefined + 1 }
  else if r.row_class = "blue" then { s with blue := s.blue + 1 }
  else { s with red := s.red + 1 }

/-- Embedding of compare_properties_data (src/compare_vars.py lines
234-291): union of keys, case-insensitive sort, one row per key.  Unlike
compare_tfvars_data it does not filter compareIdentifier. -/
def compare_properties_data (extractDiff : String → String → String → String)
    (data1 data2 : List (String × String)) (env1 env2 : String) :
    List PropRow × Summary :=
  let all_keys := (data1.map Prod.fst ++ data2.map Prod.fst).dedup
  let sorted_keys := List.mergeSort all_keys lowerLEb
  let rows := sorted_keys.map (propRowFor extractDiff data1 data2 env1 env2)
  (rows, rows.foldl propSummaryStep { equal := 0, undefined := 0, red := 0, blue := 0 })

/-- The failure kinds of the parsing layer: the file cannot be opened, or
its content does not parse.  In the source both end in logging.error plus
sys.exit(1); the two except clauses distinguish them. -/
inductive ParseErr where
  | notFound : ParseErr
  | formatError : ParseErr
deriving DecidableEq

/-- Split a character list at the first occurrence of the equals sign,
modelling Python line.split("=", 1): none when the line has no equals
sign, otherwise the text before the first one and everything after it. -/
def splitFirstAux : List Char → Option (List Char × List Char)
  | [] => none
  | c :: rest =>
    if c = '=' then some ([], rest)
    else (splitFirstAux rest).map (fun q => (c :: q.1, q.2))

/-- String form of the first-equals split. -/
def splitFirstEq (s : String) : Option (String × String) :=
  (splitFirstAux s.data).map (fun q => (String.mk q.1, String.mk q.2))

/-- Python dict assignment d[k] = v on an insertion-ordered association
list: a later binding overwrites the value in place, a new key is
appended. -/
def dictInsert (k v : String) : List (String × String) → List (String × String)
  | [] => [(k, v)]
  | (k1, v1) :: rest =>
    if k1 = k then (k, v) :: rest else (k1, v1) :: dictInsert k v rest

/-- One loop iteration of parse_properties (src/compare_vars.py lines
62-66): strip the line, skip it when blank or a comment, otherwise split
on the first equals sign (failing like the Python tuple unpacking does
when there is none) and store the trimmed key and value. -/
def parsePropLine (acc : List (String × String)) (line : String) :
    Except ParseErr (List (String × String)) :=
  let l := pyStrip line
  if l = "" then .ok acc
  else if pyStartsWith l ("#") then .ok acc
  else
    match splitFirstEq l with
    | none => .error .formatError
    | some q => .ok (dictInsert (pyStrip q.1) (pyStrip q.2) acc)

/-- The parse_properties line loop over a list of lines. -/
def parsePropLines (acc : List (String × String)) :
    List String → Except ParseErr (List (String × String))
  | [] => .ok acc
  | l :: ls =>
    match parsePropLine acc l with
    | .error e => .error e
    | .ok acc1 => parsePropLines acc1 ls

/-- parse_properties applied to the text of an already-opened file. -/
def parsePropText (text : String) : Except ParseErr (List (String × String)) :=
  parsePropLines [] (pySplit text (Char.ofNat 10))

/-- Embedding of parse_properties (src/compare_vars.py lines 58-73).  The
filesystem is a partial map from paths to file contents; an unreadable
path is the FileNotFoundError branch, which aborts with notFound and
yields no document at all. -/
def parse_properties (fs : String → Option String) (path : String) :
    Except ParseErr (List (String × String)) :=
  match fs path with
  | none => .error .notFound
  | some text => parsePropText text

/-- Embedding of parse_json (src/compare_vars.py lines 29-42).  The JSON
grammar itself lives in the external json library, abstracted as
decodeJson; the function fails with notFound when the file cannot be
opened and propagates the formatError of a malformed body
(json.JSONDecodeError). -/
def parse_json (decodeJson : String → Except ParseErr ConfigValue)
    (fs : String → Option String) (path : String) : Except ParseErr ConfigValue :=
  match fs path with
  | none => .error .notFound
  | some text => decodeJson text

/-- Embedding of parse_tfvars (src/compare_vars.py lines 45-55), with the
external hcl2 grammar abstracted as hclLoad. -/
def parse_tfvars (hclLoad : String → Except ParseErr (List (String × ConfigValue)))
    (fs : String → Option String) (path : String) :
    Except ParseErr (List (String × ConfigValue)) :=
  match fs path with
  | none => .error .notFound
  | some text => hclLoad text

/-- The key/value entry a single properties line contributes, if any:
none for blank lines, comment lines, and the (whole-parse-aborting)
malformed lines. -/
def lineEntry (line : String) : Option (String × String) :=
  let l := pyStrip line
  if l = "" then none
  else if pyStartsWith l ("#") then none
  else
    match splitFirstEq l with
    | none => none
    | some q => some (pyStrip q.1, pyStrip q.2)

mutual

/-- Specification-level deep equality as DeepDiff with ignore_order=True
and the default report_repetition=False decides it: dict keys are matched
by key regardless of order, and list elements are matched as unordered
collections WITHOUT counting repetitions (set semantics): every element
of each list must have a deeply equal counterpart in the other list, and
nothing more.  This is the right-hand side of the amended claim C2. -/
inductive DeepEqualIgnoreOrder : ConfigValue → ConfigValue → Prop where
  | null : DeepEqualIgnoreOrder .null .null
  | bool : ∀ b, DeepEqualIgnoreOrder (.bool b) (.bool b)
  | num : ∀ n, DeepEqualIgnoreOrder (.num n) (.num n)
  | str : ∀ s, DeepEqualIgnoreOrder (.str s) (.str s)
  | seq : ∀ xs ys,
      (∀ x ∈ xs, HasDeepEqualIn x ys) →
      (∀ y ∈ ys, HasDeepEqualFrom y xs) →
      DeepEqualIgnoreOrder (.seq xs) (.seq ys)
  | map : ∀ xs ys,
      (∀ k, lookupCV k xs = none ↔ lookupCV k ys = none) →
      (∀ k v w, lookupCV k xs = some v → lookupCV k ys = some w →
        DeepEqualIgnoreOrder v w) →
      DeepEqualIgnoreOrder (.map xs) (.map ys)

/-- Some element of the list is deeply equal to x (x taken on the left);
an inductive rendering of the existential that keeps the mutual
definition strictly positive. -/
inductive HasDeepEqualIn : ConfigValue → List ConfigValue → Prop where
  | head : ∀ x y ys, DeepEqualIgnoreOrder x y → HasDeepEqualIn x (y :: ys)
  | tail : ∀ x y ys, HasDeepEqualIn x ys → HasDeepEqualIn x (y :: ys)

/-- Some element of the list is deeply equal to y (y taken on the
right). -/
inductive HasDeepEqualFrom : ConfigValue → List ConfigValue → Prop where
  | head : ∀ y x xs, DeepEqualIgnoreOrder x y → HasDeepEqualFrom y (x :: xs)
  | tail : ∀ y x xs, HasDeepEqualFrom y xs → HasDeepEqualFrom y (x :: xs)

end

/-- Strong structural induction for ConfigValue through its nested lists. -/
theorem cvInduction {motive : ConfigValue → Prop}
    (hnull : motive .null) (hbool : ∀ b, motive (.bool b))
    (hnum : ∀ n, motive (.num n)) (hstr : ∀ s, motive (.str s))
    (hseq : ∀ xs, (∀ x ∈ xs, motive x) → motive (.seq xs))
    (hmap : ∀ xs, (∀ p ∈ xs, motive p.2) → motive (.map xs)) :
    ∀ v, motive v := by
  have main : ∀ n, ∀ v : ConfigValue, sizeOf v ≤ n → motive v := by
    intro n
    induction n with
    | zero => intro v hv; cases v <;> simp_all
    | succ n ih =>
      intro v hv
      cases v with
      | null => exact hnull
      | bool b => exact hbool b
      | num m => exact hnum m
      | str s => exact hstr s
      | seq xs =>
        refine hseq xs (fun x hx => ih x ?_)
        have hm := List.sizeOf_lt_of_mem hx
        simp only [ConfigValue.seq.sizeOf_spec] at hv
        omega
      | map xs =>
        refine hmap xs (fun p hp => ih p.2 ?_)
        have hm := List.sizeOf_lt_of_mem hp
        have hp2 : sizeOf p.2 < sizeOf p := by
          cases p with
          | mk a b => simp
        simp only [ConfigValue.map.sizeOf_spec] at hv
        omega
  exact fun v => main (sizeOf v) v le_rfl

/-- The three-way comparison returns eq exactly on equal arguments. -/
theorem lcmp_eq_iff {α : Type} [LinearOrder α] (a b : α) :
    lcmp a b = Ordering.eq ↔ a = b := by
  rcases lt_trichotomy a b with h | h | h
  · simp [lcmp, h, ne_of_lt h]
  · simp [lcmp, h, lt_irrefl]
  · simp [lcmp, not_lt_of_gt h, h, ne_of_gt h]

/-- The three-way comparison returns lt exactly when the first argument is
smaller. -/
theorem lcmp_lt_iff {α : Type} [LinearOrder α] (a b : α) :
    lcmp a b = Ordering.lt ↔ a < b := by
  rcases lt_trichotomy a b with h | h | h
  · simp [lcmp, h]
  · simp [lcmp, h, lt_irrefl]
  · simp [lcmp, not_lt_of_gt h, h, not_lt_of_gt h]

/-- Swapping the arguments of the three-way comparison swaps the result. -/
theorem lcmp_swap {α : Type} [LinearOrder α] (a b : α) :
    lcmp b a = (lcmp a b).swap := by
  rcases lt_trichotomy a b with h | h | h
  · simp [lcmp, h, not_lt_of_gt h, Ordering.swap]
  · simp [lcmp, h, lt_irrefl, Ordering.swap]
  · simp [lcmp, h, not_lt_of_gt h, Ordering.swap]

/-- List comparison is eq exactly on equal lists, given that element
comparison is eq exactly on equal elements. -/
theorem cmpList_eq_iff_aux :
    ∀ xs : List ConfigValue,
      (∀ x ∈ xs, ∀ b, cmpCV x b = Ordering.eq ↔ x = b) →
      ∀ ys, (cmpList xs ys = Ordering.eq ↔ xs = ys) := by
  intro xs
  induction xs with
  | nil => intro _ ys; cases ys <;> simp [cmpList]
  | cons x xs ihx =>
    intro ih ys
    have hx : ∀ b, cmpCV x b = Ordering.eq ↔ x = b := ih x (by simp)
    have ihtail := ihx (fun x1 h1 => ih x1 (by simp [h1]))
    cases ys with
    | nil => simp [cmpList]
    | cons y ys =>
      cases hcv : cmpCV x y with
      | lt =>
        have hne : x ≠ y := fun h => by simp [(hx y).mpr h] at hcv
        simp [cmpList, hcv, hne]
      | gt =>
        have hne : x ≠ y := fun h => by simp [(hx y).mpr h] at hcv
        simp [cmpList, hcv, hne]
      | eq =>
        have hxy : x = y := (hx y).mp hcv
        subst hxy
        simp [cmpList, hcv, ihtail ys]

/-- Entry-list comparison is eq exactly on equal lists, given element-level
eq-iff for the values occurring on the left. -/
theorem cmpEntries_eq_iff_aux :
    ∀ xs : List (String × ConfigValue),
      (∀ p ∈ xs, ∀ b, cmpCV p.2 b = Ordering.eq ↔ p.2 = b) →
      ∀ ys, (cmpEntries xs ys = Ordering.eq ↔ xs = ys) := by
  intro xs
  induction xs with
  | nil => intro _ ys; cases ys <;> simp [cmpEntries]
  | cons p xs ihx =>
    intro ih ys
    obtain ⟨k, v⟩ := p
    have hv : ∀ b, cmpCV v b = Ordering.eq ↔ v = b := ih (k, v) (by simp)
    have ihtail := ihx (fun p1 h1 => ih p1 (by simp [h1]))
    cases ys with
    | nil => simp [cmpEntries]
    | cons q ys =>
      obtain ⟨k1, w⟩ := q
      cases hk : lcmp k k1 with
      | lt =>
        have hne : k ≠ k1 := fun h => by simp [(lcmp_eq_iff k k1).mpr h] at hk
        simp [cmpEntries, hk, hne]
      | gt =>
        have hne : k ≠ k1 := fun h => by simp [(lcmp_eq_iff k k1).mpr h] at hk
        simp [cmpEntries, hk, hne]
      | eq =>
        have hkk : k = k1 := (lcmp_eq_iff k k1).mp hk
        subst hkk
        cases hcv : cmpCV v w with
        | lt =>
          have hne : v ≠ w := fun h => by simp [(hv w).mpr h] at hcv
          simp [cmpEntries, hk, hcv, hne]
        | gt =>
          have hne : v ≠ w := fun h => by simp [(hv w).mpr h] at hcv
          simp [cmpEntries, hk, hcv, hne]
        | eq =>
          have hvw : v = w := (hv w).mp hcv
          subst hvw
          simp [cmpEntries, hk, hcv, ihtail ys]

/-- The syntactic comparison on values is eq exactly on equal values. -/
theorem cmpCV_eq_iff : ∀ a b : ConfigValue, cmpCV a b = Ordering.eq ↔ a = b := by
  intro a
  induction a using cvInduction with
  | hnull => intro b; cases b <;> simp [cmpCV, tagOf, lcmp]
  | hbool a =>
    intro b
    cases b with
    | bool c => simp [cmpCV, lcmp_eq_iff]
    | null => simp [cmpCV, tagOf, lcmp]
    | num _ => simp [cmpCV, tagOf, lcmp]
    | str _ => simp [cmpCV, tagOf, lcmp]
    | seq _ => simp [cmpCV, tagOf, lcmp]
    | map _ => simp [cmpCV, tagOf, lcmp]
  | hnum n =>
    intro b
    cases b with
    | num c => simp [cmpCV, lcmp_eq_iff]
    | null => simp [cmpCV, tagOf, lcmp]
    | bool _ => simp [cmpCV, tagOf, lcmp]
    | str _ => simp [cmpCV, tagOf, lcmp]
    | seq _ => simp [cmpCV, tagOf, lcmp]
    | map _ => simp [cmpCV, tagOf, lcmp]
  | hstr s =>
    intro b
    cases b with
    | str c => simp [cmpCV, lcmp_eq_iff]
    | null => simp [cmpCV, tagOf, lcmp]
    | bool _ => simp [cmpCV, tagOf, lcmp]
    | num _ => simp [cmpCV, tagOf, lcmp]
    | seq _ => simp [cmpCV, tagOf, lcmp]
    | map _ => simp [cmpCV, tagOf, lcmp]
  | hseq xs ih =>
    intro b
    cases b with
    | seq ys => simpa [cmpCV] using cmpList_eq_iff_aux xs ih ys
    | null => simp [cmpCV, tagOf, lcmp]
    | bool _ => simp [cmpCV, tagOf, lcmp]
    | num _ => simp [cmpCV, tagOf, lcmp]
    | str _ => simp [cmpCV, tagOf, lcmp]
    | map _ => simp [cmpCV, tagOf, lcmp]
  | hmap xs ih =>
    intro b
    cases b with
    | map ys => simpa [cmpCV] using cmpEntries_eq_iff_aux xs ih ys
    | null => simp [cmpCV, tagOf, lcmp]
    | bool _ => simp [cmpCV, tagOf, lcmp]
    | num _ => simp [cmpCV, tagOf, lcmp]
    | str _ => simp [cmpCV, tagOf, lcmp]
    | seq _ => simp [cmpCV, tagOf, lcmp]

/-- List comparison swaps with its arguments, given element-level swap. -/
theorem cmpList_swap_aux :
    ∀ xs : List ConfigValue,
      (∀ x ∈ xs, ∀ b, cmpCV b x = (cmpCV x b).swap) →
      ∀ ys, cmpList ys xs = (cmpList xs ys).swap := by
  intro xs
  induction xs with
  | nil => intro _ ys; cases ys <;> simp [cmpList, Ordering.swap]
  | cons x xs ihx =>
    intro ih ys
    have hx := ih x (by simp)
    have ihtail := ihx (fun x1 h1 => ih x1 (by simp [h1]))
    cases ys with
    | nil => simp [cmpList, Ordering.swap]
    | cons y ys =>
      cases hcv : cmpCV x y with
      | lt => simp [cmpList, hcv, hx y, Ordering.swap]
      | gt => simp [cmpList, hcv, hx y, Ordering.swap]
      | eq => simp [cmpList, hcv, hx y, Ordering.swap, ihtail ys]

/-- Entry-list comparison swaps with its arguments, given value-level swap
for the left entries. -/
theorem cmpEntries_swap_aux :
    ∀ xs : List (String × ConfigValue),
      (∀ p ∈ xs, ∀ b, cmpCV b p.2 = (cmpCV p.2 b).swap) →
      ∀ ys, cmpEntries ys xs = (cmpEntries xs ys).swap := by
  intro xs
  induction xs with
  | nil => intro _ ys; cases ys <;> simp [cmpEntries, Ordering.swap]
  | cons p xs ihx =>
    intro ih ys
    obtain ⟨k, v⟩ := p
    have hv := ih (k, v) (by simp)
    have ihtail := ihx (fun p1 h1 => ih p1 (by simp [h1]))
    cases ys with
    | nil => simp [cmpEntries, Ordering.swap]
    | cons q ys =>
      obtain ⟨k1, w⟩ := q
      have hk := lcmp_swap k k1
      cases hkk : lcmp k k1 with
      | lt => simp [cmpEntries, hkk, hkk ▸ hk, Ordering.swap]
      | gt => simp [cmpEntries, hkk, hkk ▸ hk, Ordering.swap]
      | eq =>
        cases hcv : cmpCV v w with
        | lt => simp [cmpEntries, hkk, hkk ▸ hk, hcv, hcv ▸ hv w, Ordering.swap]
        | gt => simp [cmpEntries, hkk, hkk ▸ hk, hcv, hcv ▸ hv w, Ordering.swap]
        | eq =>
          simp [cmpEntries, hkk, hkk ▸ hk, hcv, hcv ▸ hv w, Ordering.swap, ihtail ys]

/-- Swapping the arguments of the value comparison swaps the result. -/
theorem cmpCV_swap : ∀ a b : ConfigValue, cmpCV b a = (cmpCV a b).swap := by
  intro a
  induction a using cvInduction with
  | hnull => intro b; cases b <;> simp [cmpCV, tagOf, lcmp, Ordering.swap]
  | hbool a =>
    intro b
    cases b with
    | bool c =>
      simp only [cmpCV]
      exact lcmp_swap a c
    | null => simp [cmpCV, tagOf, lcmp, Ordering.swap]
    | num _ => simp [cmpCV, tagOf, lcmp, Ordering.swap]
    | str _ => simp [cmpCV, tagOf, lcmp, Ordering.swap]
    | seq _ => simp [cmpCV, tagOf, lcmp, Ordering.swap]
    | map _ => simp [cmpCV, tagOf, lcmp, Ordering.swap]
  | hnum n =>
    intro b
    cases b with
    | num c =>
      simp only [cmpCV]
      exact lcmp_swap n c
    | null => simp [cmpCV, tagOf, lcmp, Ordering.swap]
    | bool _ => simp [cmpCV, tagOf, lcmp, Ordering.swap]
    | str _ => simp [cmpCV, tagOf, lcmp, Ordering.swap]
    | seq _ => simp [cmpCV, tagOf, lcmp, Ordering.swap]
    | map _ => simp [cmpCV, tagOf, lcmp, Ordering.swap]
  | hstr s =>
    intro b
    cases b with
    | str c =>
      simp only [cmpCV]
      exact lcmp_swap s c
    | null => simp [cmpCV, tagOf, lcmp, Ordering.swap]
    | bool _ => simp [cmpCV, tagOf, lcmp, Ordering.swap]
    | num _ => simp [cmpCV, tagOf, lcmp, Ordering.swap]
    | seq _ => simp [cmpCV, tagOf, lcmp, Ordering.swap]
    | map _ => simp [cmpCV, tagOf, lcmp, Ordering.swap]
  | hseq xs ih =>
    intro b
    cases b with
    | seq ys => simpa [cmpCV] using cmpList_swap_aux xs ih ys
    | null => simp [cmpCV, tagOf, lcmp, Ordering.swap]
    | bool _ => simp [cmpCV, tagOf, lcmp, Ordering.swap]
    | num _ => simp [cmpCV, tagOf, lcmp, Ordering.swap]
    | str _ => simp [cmpCV, tagOf, lcmp, Ordering.swap]
    | map _ => simp [cmpCV, tagOf, lcmp, Ordering.swap]
  | hmap xs ih =>
    intro b
    cases b with
    | map ys => simpa [cmpCV] using cmpEntries_swap_aux xs ih ys
    | null => simp [cmpCV, tagOf, lcmp, Ordering.swap]
    | bool _ => simp [cmpCV, tagOf, lcmp, Ordering.swap]
    | num _ => simp [cmpCV, tagOf, lcmp, Ordering.swap]
    | str _ => simp [cmpCV, tagOf, lcmp, Ordering.swap]
    | seq _ => simp [cmpCV, tagOf, lcmp, Ordering.swap]

/-- A strictly smaller result of the value comparison never decreases the
constructor tag. -/
theorem cmp_lt_tag {a b : ConfigValue} (h : cmpCV a b = Ordering.lt) :
    tagOf a ≤ tagOf b := by
  cases a <;> cases b <;> simp_all [cmpCV, tagOf, lcmp]

/-- Values with strictly increasing tags compare strictly smaller. -/
theorem tag_lt_cmp {a b : ConfigValue} (h : tagOf a < tagOf b) :
    cmpCV a b = Ordering.lt := by
  cases a <;> cases b <;> simp_all [cmpCV, tagOf, lcmp]

/-- Strict transitivity for the derived linear comparison. -/
theorem lcmp_lt_trans {α : Type} [LinearOrder α] {a b c : α}
    (h1 : lcmp a b = Ordering.lt) (h2 : lcmp b c = Ordering.lt) :
    lcmp a c = Ordering.lt :=
  (lcmp_lt_iff a c).mpr (lt_trans ((lcmp_lt_iff a b).mp h1) ((lcmp_lt_iff b c).mp h2))

/-- List comparison is strictly transitive, given strict transitivity for
the elements of the first list. -/
theorem cmpList_lt_trans_aux :
    ∀ xs : List ConfigValue,
      (∀ x ∈ xs, ∀ b c, cmpCV x b = Ordering.lt → cmpCV b c = Ordering.lt →
        cmpCV x c = Ordering.lt) →
      ∀ ys zs, cmpList xs ys = Ordering.lt → cmpList ys zs = Ordering.lt →
        cmpList xs zs = Ordering.lt := by
  intro xs
  induction xs with
  | nil =>
    intro _ ys zs h1 h2
    cases ys with
    | nil => exact h2
    | cons y ys => cases zs with
      | nil => simp [cmpList] at h2
      | cons z zs => simp [cmpList]
  | cons x xs ihx =>
    intro ih ys zs h1 h2
    have hx := ih x (by simp)
    have ihtail := ihx (fun x1 hm => ih x1 (by simp [hm]))
    cases ys with
    | nil => simp [cmpList] at h1
    | cons y ys =>
      cases zs with
      | nil => simp [cmpList] at h2
      | cons z zs =>
        cases hxy : cmpCV x y with
        | gt => simp [cmpList, hxy] at h1
        | eq =>
          have hx_eq : x = y := (cmpCV_eq_iff x y).mp hxy
          subst hx_eq
          simp only [cmpList, hxy] at h1
          cases hyz : cmpCV x z with
          | gt => simp [cmpList, hyz] at h2
          | lt => simp [cmpList, hyz]
          | eq =>
            simp only [cmpList, hyz] at h2
            simp only [cmpList, hyz]
            exact ihtail ys zs h1 h2
        | lt =>
          cases hyz : cmpCV y z with
          | gt => simp [cmpList, hyz] at h2
          | eq =>
            have hy_eq : y = z := (cmpCV_eq_iff y z).mp hyz
            subst hy_eq
            simp [cmpList, hxy]
          | lt =>
            have := hx y z hxy hyz
            simp [cmpList, this]

/-- Entry-list comparison is strictly transitive, given strict
transitivity for the values of the first list. -/
theorem cmpEntries_lt_trans_aux :
    ∀ xs : List (String × ConfigValue),
      (∀ p ∈ xs, ∀ b c, cmpCV p.2 b = Ordering.lt → cmpCV b c = Ordering.lt →
        cmpCV p.2 c = Ordering.lt) →
      ∀ ys zs, cmpEntries xs ys = Ordering.lt → cmpEntries ys zs = Ordering.lt →
        cmpEntries xs zs = Ordering.lt := by
  intro xs
  induction xs with
  | nil =>
    intro _ ys zs h1 h2
    cases ys with
    | nil => exact h2
    | cons y ys => cases zs with
      | nil => simp [cmpEntries] at h2
      | cons z zs => simp [cmpEntries]
  | cons p xs ihx =>
    intro ih ys zs h1 h2
    obtain ⟨k, v⟩ := p
    have hv := ih (k, v) (by simp)
    have ihtail := ihx (fun p1 hm => ih p1 (by simp [hm]))
    cases ys with
    | nil => simp [cmpEntries] at h1
    | cons q ys =>
      obtain ⟨k1, w⟩ := q
      cases zs with
      | nil => simp [cmpEntries] at h2
      | cons r zs =>
        obtain ⟨k2, u⟩ := r
        cases hk1 : lcmp k k1 with
        | gt => simp [cmpEntries, hk1] at h1
        | lt =>
          cases hk2 : lcmp k1 k2 with
          | gt => simp [cmpEntries, hk2] at h2
          | lt => simp [cmpEntries, lcmp_lt_trans hk1 hk2]
          | eq =>
            have : k1 = k2 := (lcmp_eq_iff k1 k2).mp hk2
            subst this
            simp [cmpEntries, hk1]
        | eq =>
          have : k = k1 := (lcmp_eq_iff k k1).mp hk1
          subst this
          simp only [cmpEntries, hk1] at h1
          cases hk2 : lcmp k k2 with
          | gt => simp [cmpEntries, hk2] at h2
          | lt => simp [cmpEntries, hk2]
          | eq =>
            have : k = k2 := (lcmp_eq_iff k k2).mp hk2
            subst this
            simp only [cmpEntries, hk2] at h2 ⊢
            cases hvw : cmpCV v w with
            | gt => simp [hvw] at h1
            | lt =>
              cases hwu : cmpCV w u with
              | gt => simp [hwu] at h2
              | lt => simp [hv w u hvw hwu]
              | eq =>
                have : w = u := (cmpCV_eq_iff w u).mp hwu
                subst this
                simp [hvw]
            | eq =>
              have : v = w := (cmpCV_eq_iff v w).mp hvw
              subst this
              simp only [hvw] at h1
              cases hwu : cmpCV v u with
              | gt => simp [hwu] at h2
              | lt => simp [hwu]
              | eq =>
                simp only [hwu] at h2 ⊢
                exact ihtail ys zs h1 h2

/-- The value comparison is strictly transitive. -/
theorem cmpCV_lt_trans :
    ∀ a b c : ConfigValue, cmpCV a b = Ordering.lt → cmpCV b c = Ordering.lt →
      cmpCV a c = Ordering.lt := by
  intro a
  induction a using cvInduction with
  | hnull =>
    intro b c h1 h2
    cases c with
    | null => cases b <;> simp_all [cmpCV, tagOf, lcmp]
    | bool _ => simp [cmpCV, tagOf, lcmp]
    | num _ => simp [cmpCV, tagOf, lcmp]
    | str _ => simp [cmpCV, tagOf, lcmp]
    | seq _ => simp [cmpCV, tagOf, lcmp]
    | map _ => simp [cmpCV, tagOf, lcmp]
  | hbool x =>
    intro b c h1 h2
    cases c with
    | null => cases b <;> simp_all [cmpCV, tagOf, lcmp]
    | bool z =>
      cases b with
      | bool y =>
        simp only [cmpCV] at h1 h2 ⊢
        exact lcmp_lt_trans h1 h2
      | null => simp_all [cmpCV, tagOf, lcmp]
      | num _ => simp_all [cmpCV, tagOf, lcmp]
      | str _ => simp_all [cmpCV, tagOf, lcmp]
      | seq _ => simp_all [cmpCV, tagOf, lcmp]
      | map _ => simp_all [cmpCV, tagOf, lcmp]
    | num _ => simp [cmpCV, tagOf, lcmp]
    | str _ => simp [cmpCV, tagOf, lcmp]
    | seq _ => simp [cmpCV, tagOf, lcmp]
    | map _ => simp [cmpCV, tagOf, lcmp]
  | hnum x =>
    intro b c h1 h2
    cases c with
    | null => cases b <;> simp_all [cmpCV, tagOf, lcmp]
    | bool _ => cases b <;> simp_all [cmpCV, tagOf, lcmp]
    | num z =>
      cases b with
      | num y =>
        simp only [cmpCV] at h1 h2 ⊢
        exact lcmp_lt_trans h1 h2
      | null => simp_all [cmpCV, tagOf, lcmp]
      | bool _ => simp_all [cmpCV, tagOf, lcmp]
      | str _ => simp_all [cmpCV, tagOf, lcmp]
      | seq _ => simp_all [cmpCV, tagOf, lcmp]
      | map _ => simp_all [cmpCV, tagOf, lcmp]
    | str _ => simp [cmpCV, tagOf, lcmp]
    | seq _ => simp [cmpCV, tagOf, lcmp]
    | map _ => simp [cmpCV, tagOf, lcmp]
  | hstr x =>
    intro b c h1 h2
    cases c with
    | null => cases b <;> simp_all [cmpCV, tagOf, lcmp]
    | bool _ => cases b <;> simp_all [cmpCV, tagOf, lcmp]
    | num _ => cases b <;> simp_all [cmpCV, tagOf, lcmp]
    | str z =>
      cases b with
      | str y =>
        simp only [cmpCV] at h1 h2 ⊢
        exact lcmp_lt_trans h1 h2
      | null => simp_all [cmpCV, tagOf, lcmp]
      | bool _ => simp_all [cmpCV, tagOf, lcmp]
      | num _ => simp_all [cmpCV, tagOf, lcmp]
      | seq _ => simp_all [cmpCV, tagOf, lcmp]
      | map _ => simp_all [cmpCV, tagOf, lcmp]
    | seq _ => simp [cmpCV, tagOf, lcmp]
    | map _ => simp [cmpCV, tagOf, lcmp]
  | hseq xs ih =>
    intro b c h1 h2
    cases c with
    | null => cases b <;> simp_all [cmpCV, tagOf, lcmp]
    | bool _ => cases b <;> simp_all [cmpCV, tagOf, lcmp]
    | num _ => cases b <;> simp_all [cmpCV, tagOf, lcmp]
    | str _ => cases b <;> simp_all [cmpCV, tagOf, lcmp]
    | seq zs =>
      cases b with
      | seq ys =>
        simp only [cmpCV] at h1 h2 ⊢
        exact cmpList_lt_trans_aux xs ih ys zs h1 h2
      | null => simp_all [cmpCV, tagOf, lcmp]
      | bool _ => simp_all [cmpCV, tagOf, lcmp]
      | num _ => simp_all [cmpCV, tagOf, lcmp]
      | str _ => simp_all [cmpCV, tagOf, lcmp]
      | map _ => simp_all [cmpCV, tagOf, lcmp]
    | map _ => simp [cmpCV, tagOf, lcmp]
  | hmap xs ih =>
    intro b c h1 h2
    cases c with
    | null => cases b <;> simp_all [cmpCV, tagOf, lcmp]
    | bool _ => cases b <;> simp_all [cmpCV, tagOf, lcmp]
    | num _ => cases b <;> simp_all [cmpCV, tagOf, lcmp]
    | str _ => cases b <;> simp_all [cmpCV, tagOf, lcmp]
    | seq _ => cases b <;> simp_all [cmpCV, tagOf, lcmp]
    | map zs =>
      cases b with
      | map ys =>
        simp only [cmpCV] at h1 h2 ⊢
        exact cmpEntries_lt_trans_aux xs ih ys zs h1 h2
      | null => simp_all [cmpCV, tagOf, lcmp]
      | bool _ => simp_all [cmpCV, tagOf, lcmp]
      | num _ => simp_all [cmpCV, tagOf, lcmp]
      | str _ => simp_all [cmpCV, tagOf, lcmp]
      | seq _ => simp_all [cmpCV, tagOf, lcmp]

/-- The boolean value order is transitive. -/
theorem cvLEb_trans : ∀ a b c : ConfigValue,
    cvLEb a b = true → cvLEb b c = true → cvLEb a c = true := by
  intro a b c h1 h2
  unfold cvLEb at h1 h2 ⊢
  cases hab : cmpCV a b with
  | gt => simp [hab] at h1
  | eq =>
    have : a = b := (cmpCV_eq_iff a b).mp hab
    subst this
    exact h2
  | lt =>
    cases hbc : cmpCV b c with
    | gt => simp [hbc] at h2
    | eq =>
      have : b = c := (cmpCV_eq_iff b c).mp hbc
      subst this
      simp [hab]
    | lt => simp [cmpCV_lt_trans a b c hab hbc]

/-- The boolean value order is total. -/
theorem cvLEb_total : ∀ a b : ConfigValue, (cvLEb a b || cvLEb b a) = true := by
  intro a b
  unfold cvLEb
  have hswap := cmpCV_swap a b
  cases hab : cmpCV a b <;> simp [hab, Ordering.swap] at hswap ⊢ <;> simp [hswap]

/-- The boolean value order is antisymmetric. -/
theorem cvLEb_antisymm : ∀ a b : ConfigValue,
    cvLEb a b = true → cvLEb b a = true → a = b := by
  intro a b h1 h2
  unfold cvLEb at h1 h2
  have hswap := cmpCV_swap a b
  cases hab : cmpCV a b with
  | eq => exact (cmpCV_eq_iff a b).mp hab
  | gt => simp [hab] at h1
  | lt => simp [hab, Ordering.swap] at hswap; simp [hswap] at h2

/-- Entry comparison is eq exactly on equal entries. -/
theorem cmpEntry_eq_iff (p q : String × ConfigValue) :
    cmpEntry p q = Ordering.eq ↔ p = q := by
  obtain ⟨k, v⟩ := p
  obtain ⟨k1, w⟩ := q
  unfold cmpEntry
  cases hk : lcmp k k1 with
  | lt =>
    have : k ≠ k1 := fun h => by simp [(lcmp_eq_iff k k1).mpr h] at hk
    simp [this]
  | gt =>
    have : k ≠ k1 := fun h => by simp [(lcmp_eq_iff k k1).mpr h] at hk
    simp [this]
  | eq =>
    have : k = k1 := (lcmp_eq_iff k k1).mp hk
    subst this
    simp [cmpCV_eq_iff]

/-- Entry comparison swaps with its arguments. -/
theorem cmpEntry_swap (p q : String × ConfigValue) :
    cmpEntry q p = (cmpEntry p q).swap := by
  obtain ⟨k, v⟩ := p
  obtain ⟨k1, w⟩ := q
  unfold cmpEntry
  have hk := lcmp_swap k k1
  cases hkk : lcmp k k1 with
  | lt => simp [hkk, hkk ▸ hk, Ordering.swap]
  | gt => simp [hkk, hkk ▸ hk, Ordering.swap]
  | eq =>
    have hk1 : lcmp k1 k = Ordering.eq := by rw [hk, hkk]; rfl
    simp only [hkk, hk1]
    exact cmpCV_swap v w

/-- Entry comparison is strictly transitive. -/
theorem cmpEntry_lt_trans {p q r : String × ConfigValue}
    (h1 : cmpEntry p q = Ordering.lt) (h2 : cmpEntry q r = Ordering.lt) :
    cmpEntry p r = Ordering.lt := by
  obtain ⟨k, v⟩ := p
  obtain ⟨k1, w⟩ := q
  obtain ⟨k2, u⟩ := r
  unfold cmpEntry at h1 h2 ⊢
  cases hk1 : lcmp k k1 with
  | gt => simp [hk1] at h1
  | lt =>
    cases hk2 : lcmp k1 k2 with
    | gt => simp [hk2] at h2
    | lt => simp [lcmp_lt_trans hk1 hk2]
    | eq =>
      have : k1 = k2 := (lcmp_eq_iff k1 k2).mp hk2
      subst this
      simp [hk1]
  | eq =>
    have : k = k1 := (lcmp_eq_iff k k1).mp hk1
    subst this
    simp only [hk1] at h1
    cases hk2 : lcmp k k2 with
    | gt => simp [hk2] at h2
    | lt => simp [hk2]
    | eq =>
      simp only [hk2] at h2 ⊢
      exact cmpCV_lt_trans v w u h1 h2

/-- The boolean entry order is transitive. -/
theorem entryLEb_trans : ∀ p q r : String × ConfigValue,
    entryLEb p q = true → entryLEb q r = true → entryLEb p r = true := by
  intro p q r h1 h2
  unfold entryLEb at h1 h2 ⊢
  cases hpq : cmpEntry p q with
  | gt => simp [hpq] at h1
  | eq =>
    have : p = q := (cmpEntry_eq_iff p q).mp hpq
    subst this
    exact h2
  | lt =>
    cases hqr : cmpEntry q r with
    | gt => simp [hqr] at h2
    | eq =>
      have : q = r := (cmpEntry_eq_iff q r).mp hqr
      subst this
      simp [hpq]
    | lt => simp [cmpEntry_lt_trans hpq hqr]

/-- The boolean entry order is total. -/
theorem entryLEb_total : ∀ p q : String × ConfigValue,
    (entryLEb p q || entryLEb q p) = true := by
  intro p q
  unfold entryLEb
  have hswap := cmpEntry_swap p q
  cases hpq : cmpEntry p q <;> simp [hpq, Ordering.swap] at hswap ⊢ <;> simp [hswap]

/-- The boolean entry order is antisymmetric. -/
theorem entryLEb_antisymm : ∀ p q : String × ConfigValue,
    entryLEb p q = true → entryLEb q p = true → p = q := by
  intro p q h1 h2
  unfold entryLEb at h1 h2
  have hswap := cmpEntry_swap p q
  cases hpq : cmpEntry p q with
  | eq => exact (cmpEntry_eq_iff p q).mp hpq
  | gt => simp [hpq] at h1
  | lt => simp [hpq, Ordering.swap] at hswap; simp [hswap] at h2

/-- Two lists have the same mergeSort exactly when they are permutations
of each other, for any transitive, total, antisymmetric boolean order. -/
theorem mergeSort_eq_iff_perm {α : Type} (le : α → α → Bool)
    (htrans : ∀ a b c, le a b = true → le b c = true → le a c = true)
    (htotal : ∀ a b, (le a b || le b a) = true)
    (hanti : ∀ a b, le a b = true → le b a = true → a = b)
    (l1 l2 : List α) :
    List.mergeSort l1 le = List.mergeSort l2 le ↔ l1.Perm l2 := by
  constructor
  · intro h
    have p1 := (List.mergeSort_perm l1 le).symm
    have p2 := List.mergeSort_perm l2 le
    rw [h] at p1
    exact p1.trans p2
  · intro h
    haveI : IsAntisymm α (fun a b => le a b = true) := ⟨hanti⟩
    have s1 := @List.sorted_mergeSort _ le htrans htotal l1
    have s2 := @List.sorted_mergeSort _ le htrans htotal l2
    have hp : (List.mergeSort l1 le).Perm (List.mergeSort l2 le) :=
      (List.mergeSort_perm l1 le).trans (h.trans (List.mergeSort_perm l2 le).symm)
    exact List.eq_of_perm_of_sorted hp s1 s2

/-- canonList is elementwise canonicalisation. -/
theorem canonList_eq_map : ∀ xs : List ConfigValue, canonList xs = xs.map canon := by
  intro xs
  induction xs with
  | nil => simp [canonList]
  | cons x xs ih => simp [canonList, ih]

/-- canonEntries canonicalises the values and keeps the keys. -/
theorem canonEntries_eq_map : ∀ xs : List (String × ConfigValue),
    canonEntries xs = xs.map (fun p => (p.1, canon p.2)) := by
  intro xs
  induction xs with
  | nil => simp [canonEntries]
  | cons p xs ih =>
    obtain ⟨k, v⟩ := p
    simp [canonEntries, ih]

/-- Canonicalisation preserves the constructor tag. -/
theorem tagOf_canon : ∀ v : ConfigValue, tagOf (canon v) = tagOf v := by
  intro v
  cases v <;> simp [canon, tagOf]

/-- Canonical forms of two lists coincide exactly when the canonical
images have the same elements as SETS (order and repetition counts
discarded by the dedup-and-sort canonicalisation). -/
theorem canon_seq_eq_iff (xs ys : List ConfigValue) :
    canon (.seq xs) = canon (.seq ys) ↔
      (∀ c, c ∈ xs.map canon ↔ c ∈ ys.map canon) := by
  simp only [canon, ConfigValue.seq.injEq]
  rw [canonList_eq_map, canonList_eq_map]
  rw [mergeSort_eq_iff_perm cvLEb cvLEb_trans cvLEb_total cvLEb_antisymm]
  rw [List.perm_ext_iff_of_nodup (List.nodup_dedup _) (List.nodup_dedup _)]
  simp only [List.mem_dedup]

/-- The inductive match predicate is the expected existential. -/
theorem hasDeepEqualIn_iff (x : ConfigValue) :
    ∀ ys : List ConfigValue,
      HasDeepEqualIn x ys ↔ ∃ y ∈ ys, DeepEqualIgnoreOrder x y := by
  intro ys
  induction ys with
  | nil =>
    constructor
    · intro h; cases h
    · rintro ⟨y, hy, _⟩; simp at hy
  | cons y ys ih =>
    constructor
    · intro h
      cases h with
      | head _ _ _ hd => exact ⟨y, by simp, hd⟩
      | tail _ _ _ ht =>
        obtain ⟨z, hz, hdz⟩ := ih.mp ht
        exact ⟨z, by simp [hz], hdz⟩
    · rintro ⟨z, hz, hdz⟩
      rcases List.mem_cons.mp hz with rfl | hz2
      · exact .head x z ys hdz
      · exact .tail x y ys (ih.mpr ⟨z, hz2, hdz⟩)

/-- The reversed inductive match predicate is the expected existential. -/
theorem hasDeepEqualFrom_iff (y : ConfigValue) :
    ∀ xs : List ConfigValue,
      HasDeepEqualFrom y xs ↔ ∃ x ∈ xs, DeepEqualIgnoreOrder x y := by
  intro xs
  induction xs with
  | nil =>
    constructor
    · intro h; cases h
    · rintro ⟨x, hx, _⟩; simp at hx
  | cons x xs ih =>
    constructor
    · intro h
      cases h with
      | head _ _ _ hd => exact ⟨x, by simp, hd⟩
      | tail _ _ _ ht =>
        obtain ⟨z, hz, hdz⟩ := ih.mp ht
        exact ⟨z, by simp [hz], hdz⟩
    · rintro ⟨z, hz, hdz⟩
      rcases List.mem_cons.mp hz with rfl | hz2
      · exact .head y z xs hdz
      · exact .tail y x xs (ih.mpr ⟨z, hz2, hdz⟩)

/-- Canonical forms of two dicts coincide exactly when the canonical
entry lists are permutations of each other. -/
theorem canon_map_eq_iff (xs ys : List (String × ConfigValue)) :
    canon (.map xs) = canon (.map ys) ↔ (canonEntries xs).Perm (canonEntries ys) := by
  simp only [canon, ConfigValue.map.injEq]
  exact mergeSort_eq_iff_perm entryLEb entryLEb_trans entryLEb_total entryLEb_antisymm _ _

/-- Lookup in the canonical entry list is the canonicalised lookup. -/
theorem lookupCV_canonEntries : ∀ (k : String) (xs : List (String × ConfigValue)),
    lookupCV k (canonEntries xs) = (lookupCV k xs).map canon := by
  intro k xs
  induction xs with
  | nil => simp [canonEntries, lookupCV]
  | cons p xs ih =>
    obtain ⟨k1, v⟩ := p
    by_cases h : k1 = k <;> simp [canonEntries, lookupCV, h, ih]

/-- Canonicalising entries keeps the key list. -/
theorem canonEntries_keys : ∀ xs : List (String × ConfigValue),
    (canonEntries xs).map Prod.fst = xs.map Prod.fst := by
  intro xs
  induction xs with
  | nil => simp [canonEntries]
  | cons p xs ih =>
    obtain ⟨k1, v⟩ := p
    simp [canonEntries, ih]

/-- Lookup misses exactly the keys outside the key list. -/
theorem lookupCV_eq_none_iff : ∀ (k : String) (xs : List (String × ConfigValue)),
    lookupCV k xs = none ↔ k ∉ xs.map Prod.fst := by
  intro k xs
  induction xs with
  | nil => simp [lookupCV]
  | cons p xs ih =>
    obtain ⟨k1, v⟩ := p
    by_cases h : k1 = k
    · subst h
      simp [lookupCV]
    · simp [lookupCV, h, ih, Ne.symm h]

/-- A successful lookup returns an entry of the list. -/
theorem lookupCV_mem : ∀ {k : String} {xs : List (String × ConfigValue)} {v},
    lookupCV k xs = some v → (k, v) ∈ xs := by
  intro k xs
  induction xs with
  | nil => intro v h; simp [lookupCV] at h
  | cons p xs ih =>
    intro v h
    obtain ⟨k1, w⟩ := p
    by_cases hk : k1 = k
    · subst hk
      simp [lookupCV] at h
      subst h
      simp
    · simp [lookupCV, hk] at h
      simp [ih h]

/-- A successful lookup splits the list around the first hit. -/
theorem lookup_some_split : ∀ {k : String} {ys : List (String × ConfigValue)} {v},
    lookupCV k ys = some v →
    ∃ s t, ys = s ++ (k, v) :: t ∧ ∀ p ∈ s, p.1 ≠ k := by
  intro k ys
  induction ys with
  | nil => intro v h; simp [lookupCV] at h
  | cons p ys ih =>
    intro v h
    obtain ⟨k1, w⟩ := p
    by_cases hk : k1 = k
    · subst hk
      simp [lookupCV] at h
      subst h
      exact ⟨[], ys, by simp⟩
    · simp [lookupCV, hk] at h
      obtain ⟨s, t, rfl, hs⟩ := ih h
      refine ⟨(k1, w) :: s, t, by simp, ?_⟩
      intro p hp
      rcases List.mem_cons.mp hp with h1 | h1
      · subst h1; exact hk
      · exact hs p h1

/-- Dropping a non-matching middle entry does not change a lookup. -/
theorem lookup_append_mid_ne : ∀ {k2 k : String} (s t : List (String × ConfigValue)) (v),
    k2 ≠ k → lookupCV k2 (s ++ (k, v) :: t) = lookupCV k2 (s ++ t) := by
  intro k2 k s t v hne
  induction s with
  | nil => simp [lookupCV, Ne.symm hne]
  | cons p s ih =>
    obtain ⟨k1, w⟩ := p
    by_cases hk : k1 = k2 <;> simp [lookupCV, hk, ih]

/-- Lookup is invariant under permutation of a dict with distinct keys. -/
theorem lookupCV_perm : ∀ {xs ys : List (String × ConfigValue)},
    xs.Perm ys → (xs.map Prod.fst).Nodup → ∀ k, lookupCV k xs = lookupCV k ys := by
  intro xs ys h
  induction h with
  | nil => intro _ _; rfl
  | cons p h ih =>
    intro hn k
    obtain ⟨k1, v⟩ := p
    by_cases hk : k1 = k
    · simp [lookupCV, hk]
    · simp only [lookupCV, if_neg hk]
      have hn1 := hn
      rw [List.map_cons] at hn1
      exact ih (List.nodup_cons.mp hn1).2 k
  | swap p q l =>
    intro hn k
    obtain ⟨k1, v⟩ := p
    obtain ⟨k2, w⟩ := q
    have hn1 := hn
    rw [List.map_cons, List.map_cons] at hn1
    have h12 := (List.nodup_cons.mp hn1).1
    have hne : k2 ≠ k1 := fun h => h12 (by simp [h])
    by_cases h1 : k1 = k
    · have hk2 : k2 ≠ k := fun hh => hne (hh.trans h1.symm)
      simp [lookupCV, h1, hk2]
    · by_cases h2 : k2 = k
      · simp [lookupCV, h1, h2]
      · simp [lookupCV, h1, h2]
  | trans h1 h2 ih1 ih2 =>
    intro hn k
    have hn2 : _ := ((h1.map Prod.fst).nodup_iff).mp hn
    exact (ih1 hn k).trans (ih2 hn2 k)

/-- Two dicts with distinct keys and identical lookups are permutations
of each other. -/
theorem perm_of_lookup_eq :
    ∀ (xs ys : List (String × ConfigValue)),
      (xs.map Prod.fst).Nodup → (ys.map Prod.fst).Nodup →
      (∀ k, lookupCV k xs = lookupCV k ys) → xs.Perm ys := by
  intro xs
  induction xs with
  | nil =>
    intro ys _ _ hl
    cases ys with
    | nil => exact List.Perm.refl []
    | cons p l =>
      obtain ⟨k, v⟩ := p
      have := hl k
      simp [lookupCV] at this
  | cons p xs ih =>
    obtain ⟨k, v⟩ := p
    intro ys hn1 hn2 hl
    have h0 : lookupCV k ys = some v := by
      rw [← hl k]
      simp [lookupCV]
    obtain ⟨s, t, rfl, hs⟩ := lookup_some_split h0
    have hn1c := hn1
    rw [List.map_cons] at hn1c
    have hkxs : k ∉ xs.map Prod.fst := (List.nodup_cons.mp hn1c).1
    have hn1t : (xs.map Prod.fst).Nodup := (List.nodup_cons.mp hn1c).2
    have hsub : ((s ++ t).map Prod.fst).Sublist ((s ++ (k, v) :: t).map Prod.fst) := by
      apply List.Sublist.map
      exact ((List.sublist_cons_self (k, v) t).append_left s)
    have hn2st : ((s ++ t).map Prod.fst).Nodup := hn2.sublist hsub
    have hknotst : k ∉ (s ++ t).map Prod.fst := by
      intro hmem
      have h1 : (s ++ (k, v) :: t).map Prod.fst =
          s.map Prod.fst ++ k :: t.map Prod.fst := by simp
      rw [h1] at hn2
      rcases List.mem_map.mp hmem with ⟨q, hq, hqk⟩
      rcases List.mem_append.mp hq with hq1 | hq1
      · have : k ∈ s.map Prod.fst := hqk ▸ List.mem_map_of_mem Prod.fst hq1
        have hd := List.disjoint_of_nodup_append hn2
        exact hd this (by simp)
      · have hks : k ∈ k :: t.map Prod.fst ∧ k ∈ t.map Prod.fst := by
          constructor
          · simp
          · exact hqk ▸ List.mem_map_of_mem Prod.fst hq1
        have := (List.nodup_append.mp hn2).2.1
        have := (List.nodup_cons.mp this).1
        exact this hks.2
    have hlk : ∀ k2, lookupCV k2 xs = lookupCV k2 (s ++ t) := by
      intro k2
      by_cases hk2 : k2 = k
      · subst hk2
        rw [(lookupCV_eq_none_iff k2 xs).mpr hkxs,
          (lookupCV_eq_none_iff k2 (s ++ t)).mpr hknotst]
      · have h1 := hl k2
        have h2 : lookupCV k2 ((k, v) :: xs) = lookupCV k2 xs := by
          simp [lookupCV, Ne.symm hk2]
        rw [h2] at h1
        rw [h1]
        exact lookup_append_mid_ne s t v hk2
    have hperm := ih (s ++ t) hn1t hn2st hlk
    exact (hperm.cons (k, v)).trans List.perm_middle.symm

/-- Elements of a well-formed list value are well-formed. -/
theorem WFCV_seq_elem {xs : List ConfigValue} (h : WFCV (.seq xs)) :
    ∀ x ∈ xs, WFCV x := by
  cases h with
  | seq _ h1 => exact h1

/-- A well-formed dict value has distinct keys. -/
theorem WFCV_map_nodup {xs : List (String × ConfigValue)} (h : WFCV (.map xs)) :
    (xs.map Prod.fst).Nodup := by
  cases h with
  | map _ hn _ => exact hn

/-- Values of a well-formed dict are well-formed. -/
theorem WFCV_map_val {xs : List (String × ConfigValue)} (h : WFCV (.map xs)) :
    ∀ p ∈ xs, WFCV p.2 := by
  cases h with
  | map _ _ hv => exact hv

/-- Canonical forms coincide exactly on values that are deeply equal up to
reordering of dict keys and list elements. -/
theorem canon_eq_iff_spec : ∀ a b : ConfigValue, WFCV a → WFCV b →
    (canon a = canon b ↔ DeepEqualIgnoreOrder a b) := by
  intro a
  induction a using cvInduction with
  | hnull =>
    intro b _ _
    cases b with
    | null =>
      simp only [canon]
      exact ⟨fun _ => .null, fun _ => trivial⟩
    | bool c => simp [canon]; intro h; cases h
    | num c => simp [canon]; intro h; cases h
    | str c => simp [canon]; intro h; cases h
    | seq c => simp [canon]; intro h; cases h
    | map c => simp [canon]; intro h; cases h
  | hbool a =>
    intro b _ _
    cases b with
    | bool c =>
      simp only [canon, ConfigValue.bool.injEq]
      constructor
      · intro h; subst h; exact .bool a
      · intro h; cases h; rfl
    | null => simp [canon]; intro h; cases h
    | num c => simp [canon]; intro h; cases h
    | str c => simp [canon]; intro h; cases h
    | seq c => simp [canon]; intro h; cases h
    | map c => simp [canon]; intro h; cases h
  | hnum n =>
    intro b _ _
    cases b with
    | num c =>
      simp only [canon, ConfigValue.num.injEq]
      constructor
      · intro h; subst h; exact .num n
      · intro h; cases h; rfl
    | null => simp [canon]; intro h; cases h
    | bool c => simp [canon]; intro h; cases h
    | str c => simp [canon]; intro h; cases h
    | seq c => simp [canon]; intro h; cases h
    | map c => simp [canon]; intro h; cases h
  | hstr s =>
    intro b _ _
    cases b with
    | str c =>
      simp only [canon, ConfigValue.str.injEq]
      constructor
      · intro h; subst h; exact .str s
      · intro h; cases h; rfl
    | null => simp [canon]; intro h; cases h
    | bool c => simp [canon]; intro h; cases h
    | num c => simp [canon]; intro h; cases h
    | seq c => simp [canon]; intro h; cases h
    | map c => simp [canon]; intro h; cases h
  | hseq xs ih =>
    intro b hwa hwb
    cases b with
    | seq ys =>
      rw [canon_seq_eq_iff]
      constructor
      · intro h
        refine DeepEqualIgnoreOrder.seq xs ys ?_ ?_
        · intro x hx
          have hcx : canon x ∈ ys.map canon :=
            (h (canon x)).mp (List.mem_map_of_mem canon hx)
          obtain ⟨y, hy, hyx⟩ := List.mem_map.mp hcx
          refine (hasDeepEqualIn_iff x ys).mpr ⟨y, hy, ?_⟩
          exact (ih x hx y (WFCV_seq_elem hwa x hx)
            (WFCV_seq_elem hwb y hy)).mp hyx.symm
        · intro y hy
          have hcy : canon y ∈ xs.map canon :=
            (h (canon y)).mpr (List.mem_map_of_mem canon hy)
          obtain ⟨x, hx, hxy⟩ := List.mem_map.mp hcy
          refine (hasDeepEqualFrom_iff y xs).mpr ⟨x, hx, ?_⟩
          exact (ih x hx y (WFCV_seq_elem hwa x hx)
            (WFCV_seq_elem hwb y hy)).mp hxy
      · intro h
        cases h with
        | seq _ _ hfwd hbwd =>
          intro c
          constructor
          · intro hc
            obtain ⟨x, hx, rfl⟩ := List.mem_map.mp hc
            obtain ⟨y, hy, hdeq⟩ := (hasDeepEqualIn_iff x ys).mp (hfwd x hx)
            have hce : canon x = canon y := (ih x hx y (WFCV_seq_elem hwa x hx)
              (WFCV_seq_elem hwb y hy)).mpr hdeq
            rw [hce]
            exact List.mem_map_of_mem canon hy
          · intro hc
            obtain ⟨y, hy, rfl⟩ := List.mem_map.mp hc
            obtain ⟨x, hx, hdeq⟩ := (hasDeepEqualFrom_iff y xs).mp (hbwd y hy)
            have hce : canon x = canon y := (ih x hx y (WFCV_seq_elem hwa x hx)
              (WFCV_seq_elem hwb y hy)).mpr hdeq
            rw [← hce]
            exact List.mem_map_of_mem canon hx
    | null => simp [canon]; intro h; cases h
    | bool c => simp [canon]; intro h; cases h
    | num c => simp [canon]; intro h; cases h
    | str c => simp [canon]; intro h; cases h
    | map c => simp [canon]; intro h; cases h
  | hmap xs ih =>
    intro b hwa hwb
    cases b with
    | map ys =>
      rw [canon_map_eq_iff]
      have hnx : ((canonEntries xs).map Prod.fst).Nodup := by
        rw [canonEntries_keys]
        exact WFCV_map_nodup hwa
      have hny : ((canonEntries ys).map Prod.fst).Nodup := by
        rw [canonEntries_keys]
        exact WFCV_map_nodup hwb
      constructor
      · intro hperm
        have hlook : ∀ k, lookupCV k (canonEntries xs) = lookupCV k (canonEntries ys) :=
          lookupCV_perm hperm hnx
        refine DeepEqualIgnoreOrder.map xs ys ?_ ?_
        · intro k
          have hk := hlook k
          rw [lookupCV_canonEntries, lookupCV_canonEntries] at hk
          constructor
          · intro h
            rw [h] at hk
            exact Option.map_eq_none.mp hk.symm
          · intro h
            rw [h] at hk
            exact Option.map_eq_none.mp hk
        · intro k v w hv hw
          have hk := hlook k
          rw [lookupCV_canonEntries, lookupCV_canonEntries, hv, hw] at hk
          simp at hk
          have hvmem := lookupCV_mem hv
          have hwmem := lookupCV_mem hw
          exact (ih (k, v) hvmem w (WFCV_map_val hwa (k, v) hvmem)
            (WFCV_map_val hwb (k, w) hwmem)).mp hk
      · intro h
        cases h with
        | map _ _ hdom hval =>
          apply perm_of_lookup_eq _ _ hnx hny
          intro k
          rw [lookupCV_canonEntries, lookupCV_canonEntries]
          cases hx : lookupCV k xs with
          | none =>
            rw [(hdom k).mp hx]
          | some v =>
            cases hy : lookupCV k ys with
            | none =>
              exact absurd ((hdom k).mpr hy) (by simp [hx])
            | some w =>
              have hvmem := lookupCV_mem hx
              have hwmem := lookupCV_mem hy
              have hcanon := (ih (k, v) hvmem w (WFCV_map_val hwa (k, v) hvmem)
                (WFCV_map_val hwb (k, w) hwmem)).mpr (hval k v w hx hy)
              simp [hcanon]
    | null => simp [canon]; intro h; cases h
    | bool c => simp [canon]; intro h; cases h
    | num c => simp [canon]; intro h; cases h
    | str c => simp [canon]; intro h; cases h
    | seq c => simp [canon]; intro h; cases h

/-- The embedded DeepDiff emptiness test decides specification-level deep
equality up to reordering, on well-formed documents. -/
theorem deepDiffEmpty_iff_spec {a b : ConfigValue} (ha : WFCV a) (hb : WFCV b) :
    deepDiffEmpty a b = true ↔ DeepEqualIgnoreOrder a b := by
  unfold deepDiffEmpty
  rw [decide_eq_true_eq]
  exact canon_eq_iff_spec a b ha hb

/-- Python equality against the string "undefined" holds exactly for the
string value "undefined" itself (no other value, of any shape, compares
equal to a string). -/
theorem pyEq_sentinel_iff (v : ConfigValue) :
    pyEq v undefinedSentinel = true ↔ v = undefinedSentinel := by
  cases v <;> simp [pyEq, undefinedSentinel]

/-- Every branch of the comparison loop stores the key unchanged. -/
theorem rowFor_key (f : String → ConfigValue → ConfigValue → String)
    (d1 d2 : List (String × ConfigValue)) (e1 e2 k : String) :
    (rowFor f d1 d2 e1 e2 k).key = k := by
  unfold rowFor
  dsimp only
  split_ifs <;> rfl

/-- The loop classifies a row yellow exactly when one of the two
looked-up values (defaulting to "undefined") is the string "undefined". -/
theorem rowFor_yellow_iff (f : String → ConfigValue → ConfigValue → String)
    (d1 d2 : List (String × ConfigValue)) (e1 e2 k : String) :
    (rowFor f d1 d2 e1 e2 k).row_class = "yellow" ↔
      ((lookupCV k d1).getD undefinedSentinel = undefinedSentinel ∨
       (lookupCV k d2).getD undefinedSentinel = undefinedSentinel) := by
  unfold rowFor
  dsimp only
  have psent : pyEq undefinedSentinel undefinedSentinel = true := by
    simp [pyEq, undefinedSentinel]
  by_cases h1 : pyEq ((lookupCV k d1).getD undefinedSentinel) undefinedSentinel = true
  · simp [h1, (pyEq_sentinel_iff _).mp h1, psent]
  · by_cases h2 : pyEq ((lookupCV k d2).getD undefinedSentinel) undefinedSentinel = true
    · have b1 : pyEq ((lookupCV k d1).getD undefinedSentinel) undefinedSentinel = false :=
        Bool.eq_false_iff.mpr h1
      have hv1 : ¬((lookupCV k d1).getD undefinedSentinel = undefinedSentinel) :=
        fun hh => h1 ((pyEq_sentinel_iff _).mpr hh)
      simp [b1, h1, h2, (pyEq_sentinel_iff _).mp h2, psent, hv1]
    · have hv1 : ¬((lookupCV k d1).getD undefinedSentinel = undefinedSentinel) :=
        fun hh => h1 ((pyEq_sentinel_iff _).mpr hh)
      have hv2 : ¬((lookupCV k d2).getD undefinedSentinel = undefinedSentinel) :=
        fun hh => h2 ((pyEq_sentinel_iff _).mpr hh)
      have b1 : pyEq ((lookupCV k d1).getD undefinedSentinel) undefinedSentinel = false :=
        Bool.eq_false_iff.mpr h1
      have b2 : pyEq ((lookupCV k d2).getD undefinedSentinel) undefinedSentinel = false :=
        Bool.eq_false_iff.mpr h2
      simp only [b1, b2, Bool.not_false, Bool.and_self, if_true]
      split_ifs <;> simp [hv1, hv2]

/-- When both looked-up values are present and are not the sentinel, the
row class is decided by the diff emptiness and the environment
classifier. -/
theorem rowFor_class_present (f : String → ConfigValue → ConfigValue → String)
    (d1 d2 : List (String × ConfigValue)) (e1 e2 k : String)
    (h1 : (lookupCV k d1).getD undefinedSentinel ≠ undefinedSentinel)
    (h2 : (lookupCV k d2).getD undefinedSentinel ≠ undefinedSentinel) :
    (rowFor f d1 d2 e1 e2 k).row_class =
      if deepDiffEmpty ((lookupCV k d1).getD undefinedSentinel)
          ((lookupCV k d2).getD undefinedSentinel) then ("equal")
      else if is_environment_specific k e1 e2 then ("blue") else ("red") := by
  unfold rowFor
  dsimp only
  have b1 : pyEq ((lookupCV k d1).getD undefinedSentinel) undefinedSentinel = false :=
    Bool.eq_false_iff.mpr (fun hh => h1 ((pyEq_sentinel_iff _).mp hh))
  have b2 : pyEq ((lookupCV k d2).getD undefinedSentinel) undefinedSentinel = false :=
    Bool.eq_false_iff.mpr (fun hh => h2 ((pyEq_sentinel_iff _).mp hh))
  simp only [b1, b2, Bool.not_false, Bool.and_self, if_true]
  split_ifs <;> rfl

/-- Every branch of the properties comparison loop stores the key
unchanged. -/
theorem propRowFor_key (g : String → String → String → String)
    (d1 d2 : List (String × String)) (e1 e2 k : String) :
    (propRowFor g d1 d2 e1 e2 k).key = k := by
  unfold propRowFor
  dsimp only
  split_ifs <;> rfl

/-- The properties loop classifies a row yellow exactly when one of the
two looked-up values (defaulting to "undefined") is the string
"undefined". -/
theorem propRowFor_yellow_iff (g : String → String → String → String)
    (d1 d2 : List (String × String)) (e1 e2 k : String) :
    (propRowFor g d1 d2 e1 e2 k).row_class = "yellow" ↔
      ((lookupStr k d1).getD ("undefined") = "undefined" ∨
       (lookupStr k d2).getD ("undefined") = "undefined") := by
  unfold propRowFor
  dsimp only
  by_cases h1 : (lookupStr k d1).getD ("undefined") = "undefined"
  · simp [h1]
  · by_cases h2 : (lookupStr k d2).getD ("undefined") = "undefined"
    · simp [h1, h2]
    · have b1 : ((lookupStr k d1).getD ("undefined") != "undefined") = true := by
        simp [bne_iff_ne, h1]
      have b2 : ((lookupStr k d2).getD ("undefined") != "undefined") = true := by
        simp [bne_iff_ne, h2]
      simp only [b1, b2, Bool.and_self, if_true]
      split_ifs <;> simp [h1, h2]

/-- A defaulted lookup hits the default exactly when the lookup missed or
returned the default itself. -/
theorem getD_eq_default_iff {α : Type} (o : Option α) (d : α) :
    o.getD d = d ↔ (o = none ∨ o = some d) := by
  cases o <;> simp

/-- Claim C1 (amended).  In both compare_tfvars_data and
compare_properties_data, a row is classified yellow (not defined) exactly
when, on at least one side, the key is absent or is bound to the literal
string "undefined" (the lookup default makes the two indistinguishable);
when both sides hold a value other than the string "undefined", the row
class is equal, blue or red, never yellow. -/
theorem claim1_yellow_iff_absent_or_sentinel :
    (∀ (f : String → ConfigValue → ConfigValue → String)
        (d1 d2 : List (String × ConfigValue)) (e1 e2 : String) r,
      r ∈ (compare_tfvars_data f d1 d2 e1 e2).1 →
      (r.row_class = "yellow" ↔
        (lookupCV r.key (d1.filter (fun p => p.1 != "compareIdentifier")) = none ∨
         lookupCV r.key (d1.filter (fun p => p.1 != "compareIdentifier")) =
           some undefinedSentinel ∨
         lookupCV r.key (d2.filter (fun p => p.1 != "compareIdentifier")) = none ∨
         lookupCV r.key (d2.filter (fun p => p.1 != "compareIdentifier")) =
           some undefinedSentinel))) ∧
    (∀ (g : String → String → String → String)
        (d1 d2 : List (String × String)) (e1 e2 : String) r,
      r ∈ (compare_properties_data g d1 d2 e1 e2).1 →
      (r.row_class = "yellow" ↔
        (lookupStr r.key d1 = none ∨ lookupStr r.key d1 = some ("undefined") ∨
         lookupStr r.key d2 = none ∨ lookupStr r.key d2 = some ("undefined")))) := by
  constructor
  · intro f d1 d2 e1 e2 r hr
    simp only [compare_tfvars_data] at hr
    obtain ⟨k, _, rfl⟩ := List.mem_map.mp hr
    rw [rowFor_key, rowFor_yellow_iff, getD_eq_default_iff, getD_eq_default_iff]
    tauto
  · intro g d1 d2 e1 e2 r hr
    simp only [compare_properties_data] at hr
    obtain ⟨k, _, rfl⟩ := List.mem_map.mp hr
    rw [propRowFor_key, propRowFor_yellow_iff, getD_eq_default_iff, getD_eq_default_iff]
    tauto

/-- Claim C1 as frozen is false: the key "a" is present in both documents
below, yet the single produced row is classified yellow (not defined),
because the left value is the literal string "undefined", which the
lookup default makes indistinguishable from an absent key. -/
theorem claim1_counterexample :
    ((compare_tfvars_data (fun _ _ _ => "") [("a", ConfigValue.str ("undefined"))]
        [("a", ConfigValue.str ("x"))] "dev" "prod").1.map ComparisonRow.row_class
      = ["yellow"]) ∧
    lookupCV ("a") [("a", ConfigValue.str ("undefined"))] =
      some (ConfigValue.str ("undefined")) ∧
    lookupCV ("a") [("a", ConfigValue.str ("x"))] = some (ConfigValue.str ("x")) := by
  refine ⟨?_, by simp [lookupCV], by simp [lookupCV]⟩
  simp [compare_tfvars_data, rowFor, lookupCV, pyEq, undefinedSentinel,
    List.mergeSort, List.dedup]

/-- Witness for claim C1: a concrete run with key "a" only on the left,
where the theorem applies and the row is indeed classified yellow with
the key absent on the right. -/
theorem claim1_witness :
    (rowFor (fun _ _ _ => "") [("a", ConfigValue.num 1)] [] "dev" "prod" "a") ∈
      (compare_tfvars_data (fun _ _ _ => "") [("a", ConfigValue.num 1)] []
        "dev" "prod").1 ∧
    ((rowFor (fun _ _ _ => "") [("a", ConfigValue.num 1)] [] "dev" "prod"
        "a").row_class = "yellow" ↔
      (lookupCV (rowFor (fun _ _ _ => "") [("a", ConfigValue.num 1)] [] "dev"
          "prod" "a").key
        ([("a", ConfigValue.num 1)].filter (fun p => p.1 != "compareIdentifier")) =
          none ∨
       lookupCV (rowFor (fun _ _ _ => "") [("a", ConfigValue.num 1)] [] "dev"
          "prod" "a").key
        ([("a", ConfigValue.num 1)].filter (fun p => p.1 != "compareIdentifier")) =
          some undefinedSentinel ∨
       lookupCV (rowFor (fun _ _ _ => "") [("a", ConfigValue.num 1)] [] "dev"
          "prod" "a").key
        (([] : List (String × ConfigValue)).filter
          (fun p => p.1 != "compareIdentifier")) = none ∨
       lookupCV (rowFor (fun _ _ _ => "") [("a", ConfigValue.num 1)] [] "dev"
          "prod" "a").key
        (([] : List (String × ConfigValue)).filter
          (fun p => p.1 != "compareIdentifier")) = some undefinedSentinel)) := by
  have hmem : (rowFor (fun _ _ _ => "") [("a", ConfigValue.num 1)] [] "dev"
      "prod" "a") ∈
      (compare_tfvars_data (fun _ _ _ => "") [("a", ConfigValue.num 1)] []
        "dev" "prod").1 := by
    simp [compare_tfvars_data, List.mergeSort, List.dedup]
  exact ⟨hmem, claim1_yellow_iff_absent_or_sentinel.1 (fun _ _ _ => "")
    [("a", ConfigValue.num 1)] [] "dev" "prod" _ hmem⟩

/-- The case-insensitive key order is transitive. -/
theorem lowerLEb_trans : ∀ a b c : String,
    lowerLEb a b = true → lowerLEb b c = true → lowerLEb a c = true := by
  intro a b c h1 h2
  unfold lowerLEb at h1 h2 ⊢
  rw [decide_eq_true_eq] at h1 h2 ⊢
  exact le_trans h1 h2

/-- The case-insensitive key order is total. -/
theorem lowerLEb_total : ∀ a b : String, (lowerLEb a b || lowerLEb b a) = true := by
  intro a b
  unfold lowerLEb
  rcases le_total (strLower a) (strLower b) with h | h <;> simp [h]

/-- Claim C3 (amended).  compare_tfvars_data produces exactly one row for
every top-level key of either document other than the reserved key
compareIdentifier, rows are sorted case-insensitively by key, and the key
compareIdentifier never yields a row. -/
theorem claim3_one_row_per_key_sorted :
    (∀ (f : String → ConfigValue → ConfigValue → String)
        (d1 d2 : List (String × ConfigValue)) (e1 e2 k : String),
      k ≠ "compareIdentifier" →
      (k ∈ d1.map Prod.fst ∨ k ∈ d2.map Prod.fst) →
      ((compare_tfvars_data f d1 d2 e1 e2).1.filter
        (fun r => r.key == k)).length = 1) ∧
    (∀ (f : String → ConfigValue → ConfigValue → String)
        (d1 d2 : List (String × ConfigValue)) (e1 e2 : String),
      ((compare_tfvars_data f d1 d2 e1 e2).1.Pairwise
        (fun r1 r2 => lowerLEb r1.key r2.key = true))) ∧
    (∀ (f : String → ConfigValue → ConfigValue → String)
        (d1 d2 : List (String × ConfigValue)) (e1 e2 : String) r,
      r ∈ (compare_tfvars_data f d1 d2 e1 e2).1 → r.key ≠ "compareIdentifier") := by
  refine ⟨?_, ?_, ?_⟩
  · intro f d1 d2 e1 e2 k hk hmem
    simp only [compare_tfvars_data]
    rw [List.filter_map]
    rw [List.length_map]
    have hcomp : ((fun r => r.key == k) ∘
        (rowFor f (d1.filter (fun p => p.1 != "compareIdentifier"))
          (d2.filter (fun p => p.1 != "compareIdentifier")) e1 e2)) =
        (fun x => x == k) := by
      funext x
      simp [Function.comp, rowFor_key]
    rw [hcomp]
    rw [List.countP_eq_length_filter _ _ |>.symm]
    have hperm := List.mergeSort_perm
      ((d1.filter (fun p => p.1 != "compareIdentifier")).map Prod.fst ++
        (d2.filter (fun p => p.1 != "compareIdentifier")).map Prod.fst).dedup lowerLEb
    rw [hperm.countP_eq]
    have hmem1 : k ∈ ((d1.filter (fun p => p.1 != "compareIdentifier")).map Prod.fst ++
        (d2.filter (fun p => p.1 != "compareIdentifier")).map Prod.fst).dedup := by
      rw [List.mem_dedup, List.mem_append]
      rcases hmem with h | h
      · left
        rcases List.mem_map.mp h with ⟨p, hp, rfl⟩
        exact List.mem_map_of_mem Prod.fst
          (List.mem_filter.mpr ⟨hp, by simp [bne_iff_ne, hk]⟩)
      · right
        rcases List.mem_map.mp h with ⟨p, hp, rfl⟩
        exact List.mem_map_of_mem Prod.fst
          (List.mem_filter.mpr ⟨hp, by simp [bne_iff_ne, hk]⟩)
    have hnd : (((d1.filter (fun p => p.1 != "compareIdentifier")).map Prod.fst ++
        (d2.filter (fun p => p.1 != "compareIdentifier")).map Prod.fst).dedup).Nodup :=
      List.nodup_dedup _
    have := List.count_eq_one_of_mem hnd hmem1
    simpa [List.count] using this
  · intro f d1 d2 e1 e2
    simp only [compare_tfvars_data]
    rw [List.pairwise_map]
    have hs := @List.sorted_mergeSort _ lowerLEb lowerLEb_trans lowerLEb_total
      ((d1.filter (fun p => p.1 != "compareIdentifier")).map Prod.fst ++
        (d2.filter (fun p => p.1 != "compareIdentifier")).map Prod.fst).dedup
    apply hs.imp
    intro a b hab
    rw [rowFor_key, rowFor_key]
    exact hab
  · intro f d1 d2 e1 e2 r hr
    simp only [compare_tfvars_data] at hr
    obtain ⟨k, hk_mem, rfl⟩ := List.mem_map.mp hr
    rw [rowFor_key]
    have hk2 := (List.mergeSort_perm _ lowerLEb).mem_iff.mp hk_mem
    rw [List.mem_dedup, List.mem_append] at hk2
    rcases hk2 with h | h <;>
      rcases List.mem_map.mp h with ⟨p, hp, rfl⟩ <;>
      exact bne_iff_ne.mp (List.mem_filter.mp hp).2

/-- Claim C3 as frozen is false: the top-level key compareIdentifier is
present in the left document, yet compare_tfvars_data produces no row at
all for it (it is filtered out before the union is taken). -/
theorem claim3_counterexample :
    "compareIdentifier" ∈
      ([("compareIdentifier", ConfigValue.str ("x"))].map Prod.fst) ∧
    (compare_tfvars_data (fun _ _ _ => "")
      [("compareIdentifier", ConfigValue.str ("x"))] [] "dev" "prod").1 = [] := by
  constructor
  · simp
  · simp [compare_tfvars_data, List.mergeSort, List.dedup]

/-- Witness for claim C3: a concrete one-key comparison in which the
theorem yields exactly one row for the key "a", and no compareIdentifier
row exists. -/
theorem claim3_witness :
    ("a" : String) ≠ "compareIdentifier" ∧
    ("a" ∈ [("a", ConfigValue.num 1)].map Prod.fst ∨
      "a" ∈ ([] : List (String × ConfigValue)).map Prod.fst) ∧
    ((compare_tfvars_data (fun _ _ _ => "") [("a", ConfigValue.num 1)] []
      "dev" "prod").1.filter (fun r => r.key == "a")).length = 1 := by
  refine ⟨by decide, Or.inl (by simp), ?_⟩
  exact claim3_one_row_per_key_sorted.1 (fun _ _ _ => "")
    [("a", ConfigValue.num 1)] [] "dev" "prod" "a" (by decide) (Or.inl (by simp))

/-- The empty needle is a substring of everything, as in Python. -/
theorem strContains_empty_needle : ∀ hay : String, strContains hay ("") = true := by
  intro hay
  unfold strContains
  cases h : hay.data with
  | nil => simp [isSubstrAux]
  | cons c rest => simp [isSubstrAux, List.isPrefixOf]

/-- An empty environment label makes every key environment specific in
the compare_vars.py classifier. -/
theorem isEnvSpecific_of_empty_env : ∀ (key e1 e2 : String),
    e1 = "" ∨ e2 = "" → is_environment_specific key e1 e2 = true := by
  intro key e1 e2 h
  unfold is_environment_specific
  rcases h with h | h <;> subst h <;>
    simp [strContains_empty_needle, strLower]

/-- An empty environment label makes every key environment specific in
the compare_tfvars.py classifier as well. -/
theorem tfvars_isEnvSpecific_of_empty_env : ∀ (key e1 e2 : String),
    e1 = "" ∨ e2 = "" → CompareTfvars.is_environment_specific key e1 e2 = true := by
  intro key e1 e2 h
  unfold CompareTfvars.is_environment_specific
  rcases h with h | h <;> subst h <;>
    simp [strContains_empty_needle, strLower]

/-- Claim C9.  If either environment label is the empty string, both
is_environment_specific variants return true for every key (the empty
string is a substring of every key), so a comparison run with an empty
label never classifies a row red (Unexpected): every differing
present-on-both-sides key is classified blue (ExpectedForEnv). -/
theorem claim9_empty_env_always_specific :
    (∀ (key e1 e2 : String), e1 = "" ∨ e2 = "" →
      is_environment_specific key e1 e2 = true) ∧
    (∀ (key e1 e2 : String), e1 = "" ∨ e2 = "" →
      CompareTfvars.is_environment_specific key e1 e2 = true) ∧
    (∀ (f : String → ConfigValue → ConfigValue → String)
        (d1 d2 : List (String × ConfigValue)) (e1 e2 : String) r,
      e1 = "" ∨ e2 = "" →
      r ∈ (compare_tfvars_data f d1 d2 e1 e2).1 → r.row_class ≠ "red") ∧
    (∀ (f : String → ConfigValue → ConfigValue → String)
        (d1 d2 : List (String × ConfigValue)) (e1 e2 k : String),
      e1 = "" ∨ e2 = "" →
      (lookupCV k d1).getD undefinedSentinel ≠ undefinedSentinel →
      (lookupCV k d2).getD undefinedSentinel ≠ undefinedSentinel →
      deepDiffEmpty ((lookupCV k d1).getD undefinedSentinel)
        ((lookupCV k d2).getD undefinedSentinel) = false →
      (rowFor f d1 d2 e1 e2 k).row_class = "blue") := by
  refine ⟨isEnvSpecific_of_empty_env, tfvars_isEnvSpecific_of_empty_env, ?_, ?_⟩
  · intro f d1 d2 e1 e2 r henv hr
    simp only [compare_tfvars_data] at hr
    obtain ⟨k, _, rfl⟩ := List.mem_map.mp hr
    by_cases h1 : (lookupCV k (d1.filter (fun p => p.1 != "compareIdentifier"))).getD
        undefinedSentinel = undefinedSentinel
    · have hy := (rowFor_yellow_iff f (d1.filter (fun p => p.1 != "compareIdentifier"))
        (d2.filter (fun p => p.1 != "compareIdentifier")) e1 e2 k).mpr (Or.inl h1)
      rw [hy]
      decide
    · by_cases h2 : (lookupCV k (d2.filter (fun p => p.1 != "compareIdentifier"))).getD
          undefinedSentinel = undefinedSentinel
      · have hy := (rowFor_yellow_iff f (d1.filter (fun p => p.1 != "compareIdentifier"))
          (d2.filter (fun p => p.1 != "compareIdentifier")) e1 e2 k).mpr (Or.inr h2)
        rw [hy]
        decide
      · rw [rowFor_class_present f (d1.filter (fun p => p.1 != "compareIdentifier"))
          (d2.filter (fun p => p.1 != "compareIdentifier")) e1 e2 k h1 h2]
        rw [isEnvSpecific_of_empty_env k e1 e2 henv]
        split_ifs <;> simp_all
  · intro f d1 d2 e1 e2 k henv h1 h2 hdd
    rw [rowFor_class_present f d1 d2 e1 e2 k h1 h2, hdd,
      isEnvSpecific_of_empty_env k e1 e2 henv]
    rfl

/-- Witness for claim C9: with env1 empty, both classifiers accept the
key "a", and the concrete differing comparison row is classified blue. -/
theorem claim9_witness :
    (("" : String) = "" ∨ ("prod" : String) = "") ∧
    is_environment_specific ("a") "" "prod" = true ∧
    CompareTfvars.is_environment_specific ("a") "" "prod" = true ∧
    (rowFor (fun _ _ _ => "") [("a", ConfigValue.num 1)] [("a", ConfigValue.num 2)]
      "" "prod" "a").row_class = "blue" := by
  have henv : ("" : String) = "" ∨ ("prod" : String) = "" := Or.inl rfl
  have h1 : (lookupCV ("a") [("a", ConfigValue.num 1)]).getD undefinedSentinel ≠
      undefinedSentinel := by
    simp [lookupCV, undefinedSentinel]
  have h2 : (lookupCV ("a") [("a", ConfigValue.num 2)]).getD undefinedSentinel ≠
      undefinedSentinel := by
    simp [lookupCV, undefinedSentinel]
  have hdd : deepDiffEmpty ((lookupCV ("a") [("a", ConfigValue.num 1)]).getD
      undefinedSentinel) ((lookupCV ("a") [("a", ConfigValue.num 2)]).getD
      undefinedSentinel) = false := by
    unfold deepDiffEmpty
    rw [decide_eq_false_iff_not]
    simp [lookupCV, canon]
  exact ⟨henv, claim9_empty_env_always_specific.1 ("a") "" "prod" henv,
    claim9_empty_env_always_specific.2.1 ("a") "" "prod" henv,
    claim9_empty_env_always_specific.2.2.2 (fun _ _ _ => "")
      [("a", ConfigValue.num 1)] [("a", ConfigValue.num 2)] "" "prod" "a"
      henv h1 h2 hdd⟩

/-- The substring search decides the contiguous-infix relation on
character lists. -/
theorem isSubstrAux_iff_infix (nd : List Char) :
    ∀ l : List Char, isSubstrAux nd l = true ↔ List.IsInfix nd l := by
  intro l
  induction l with
  | nil =>
    simp only [isSubstrAux, List.isEmpty_iff]
    constructor
    · intro h; subst h; exact List.infix_refl []
    · intro h; exact List.eq_nil_of_infix_nil h
  | cons c rest ih =>
    simp only [isSubstrAux, Bool.or_eq_true, List.isPrefixOf_iff_prefix]
    rw [ih, List.infix_cons_iff]

/-- The substring test decides the contiguous-infix relation on the
character lists, the specification reading of Python `in`. -/
theorem strContains_iff_infix (hay needle : String) :
    strContains hay needle = true ↔ List.IsInfix needle.data hay.data := by
  unfold strContains
  exact isSubstrAux_iff_infix needle.data hay.data

/-- Claim C5.  is_environment_specific returns true exactly when the
lower-cased key contains one of the lower-cased indicators (env1, env2,
"prod", "staging", "dev") or one of the fixed vocabulary terms as a
contiguous substring; in particular "s3_bucket_url" is environment
specific for dev/prod, "max_retries" is not, and "envelope" is (substring
match on "env"). -/
theorem claim5_env_specific_iff :
    (∀ key env1 env2 : String,
      is_environment_specific key env1 env2 = true ↔
        ((∃ ind ∈ [strLower env1, strLower env2, "prod", "staging", "dev"],
            List.IsInfix ind.data (strLower key).data) ∨
         (∃ t ∈ environment_specific_keys, List.IsInfix t.data (strLower key).data))) ∧
    is_environment_specific ("s3_bucket_url") "dev" "prod" = true ∧
    is_environment_specific ("max_retries") "dev" "prod" = false ∧
    is_environment_specific ("envelope") "dev" "prod" = true := by
  refine ⟨?_, by decide, by decide, by decide⟩
  intro key env1 env2
  unfold is_environment_specific
  dsimp only
  by_cases h1 : [strLower env1, strLower env2, "prod", "staging", "dev"].any
      (fun ind => strContains (strLower key) ind) = true
  · rw [if_pos h1]
    simp only [List.any_eq_true, strContains_iff_infix] at h1
    exact iff_of_true rfl (Or.inl h1)
  · rw [if_neg h1]
    by_cases h2 : environment_specific_keys.any
        (fun es => strContains (strLower key) es) = true
    · rw [if_pos h2]
      simp only [List.any_eq_true, strContains_iff_infix] at h2
      exact iff_of_true rfl (Or.inr h2)
    · rw [if_neg h2]
      simp only [List.any_eq_true, strContains_iff_infix] at h1 h2
      refine iff_of_false (by simp) ?_
      rintro (h | h)
      · exact h1 h
      · exact h2 h

/-- Claim C2 (amended).  For well-formed values, the structural diff
(DeepDiff with ignore_order=True and the default report_repetition=False
inside compare_tfvars_data) is empty exactly when the two values are
deeply equal with dict entries matched by key and list elements compared
as SETS: order is ignored and so are repetition counts, each element of
either list only needing some deeply-equal partner in the other; and for
two values present under one key (neither the string "undefined"), the
row is classified Equal exactly when that diff is empty.  In particular
two lists holding the same elements in different orders - or with
different repetition counts - yield an empty diff and an Equal row. -/
theorem claim2_diff_empty_iff_ignore_order :
    (∀ a b : ConfigValue, WFCV a → WFCV b →
      (deepDiffEmpty a b = true ↔ DeepEqualIgnoreOrder a b)) ∧
    (∀ (f : String → ConfigValue → ConfigValue → String)
        (d1 d2 : List (String × ConfigValue)) (e1 e2 k : String),
      (lookupCV k d1).getD undefinedSentinel ≠ undefinedSentinel →
      (lookupCV k d2).getD undefinedSentinel ≠ undefinedSentinel →
      ((rowFor f d1 d2 e1 e2 k).row_class = "equal" ↔
        deepDiffEmpty ((lookupCV k d1).getD undefinedSentinel)
          ((lookupCV k d2).getD undefinedSentinel) = true)) := by
  constructor
  · intro a b ha hb
    exact deepDiffEmpty_iff_spec ha hb
  · intro f d1 d2 e1 e2 k h1 h2
    rw [rowFor_class_present f d1 d2 e1 e2 k h1 h2]
    by_cases hd : deepDiffEmpty ((lookupCV k d1).getD undefinedSentinel)
        ((lookupCV k d2).getD undefinedSentinel) = true
    · simp [hd]
    · rw [Bool.eq_false_iff.mpr hd]
      simp only [if_false, Bool.false_eq_true]
      split_ifs <;> simp [hd]

/-- Claim C2 as frozen is false: the lists [1, 2] and [2, 1] hold the
same elements in different orders, yet their diff is empty (the code
passes ignore_order=True to DeepDiff) and the comparison row for a key
holding them is classified Equal, although the two values are not equal
with order-sensitive list comparison.  Moreover the comparison is
set-like, not multiset-like: with report_repetition left at its default
(False), [1, 2, 3] against [1, 2, 3, 3] also yields an empty diff and an
Equal row, although the repetition counts differ. -/
theorem claim2_counterexample :
    deepDiffEmpty (ConfigValue.seq [ConfigValue.num 1, ConfigValue.num 2])
      (ConfigValue.seq [ConfigValue.num 2, ConfigValue.num 1]) = true ∧
    ConfigValue.seq [ConfigValue.num 1, ConfigValue.num 2] ≠
      ConfigValue.seq [ConfigValue.num 2, ConfigValue.num 1] ∧
    (rowFor (fun _ _ _ => "")
      [("k", ConfigValue.seq [ConfigValue.num 1, ConfigValue.num 2])]
      [("k", ConfigValue.seq [ConfigValue.num 2, ConfigValue.num 1])]
      "dev" "prod" "k").row_class = "equal" ∧
    deepDiffEmpty
      (ConfigValue.seq [ConfigValue.num 1, ConfigValue.num 2, ConfigValue.num 3])
      (ConfigValue.seq [ConfigValue.num 1, ConfigValue.num 2, ConfigValue.num 3,
        ConfigValue.num 3]) = true ∧
    (rowFor (fun _ _ _ => "")
      [("r", ConfigValue.seq [ConfigValue.num 1, ConfigValue.num 2,
        ConfigValue.num 3])]
      [("r", ConfigValue.seq [ConfigValue.num 1, ConfigValue.num 2,
        ConfigValue.num 3, ConfigValue.num 3])]
      "dev" "prod" "r").row_class = "equal" := by
  have hwf1 : WFCV (ConfigValue.seq [ConfigValue.num 1, ConfigValue.num 2]) := by
    refine WFCV.seq _ ?_
    intro x hx
    rcases List.mem_cons.mp hx with rfl | hx
    · exact WFCV.num 1
    rcases List.mem_cons.mp hx with rfl | hx
    · exact WFCV.num 2
    simp at hx
  have hwf2 : WFCV (ConfigValue.seq [ConfigValue.num 2, ConfigValue.num 1]) := by
    refine WFCV.seq _ ?_
    intro x hx
    rcases List.mem_cons.mp hx with rfl | hx
    · exact WFCV.num 2
    rcases List.mem_cons.mp hx with rfl | hx
    · exact WFCV.num 1
    simp at hx
  have hspec : DeepEqualIgnoreOrder
      (ConfigValue.seq [ConfigValue.num 1, ConfigValue.num 2])
      (ConfigValue.seq [ConfigValue.num 2, ConfigValue.num 1]) := by
    refine DeepEqualIgnoreOrder.seq _ _ ?_ ?_
    · intro x hx
      fin_cases hx
      · exact .tail _ _ _ (.head _ _ _ (.num 1))
      · exact .head _ _ _ (.num 2)
    · intro y hy
      fin_cases hy
      · exact .tail _ _ _ (.head _ _ _ (.num 2))
      · exact .head _ _ _ (.num 1)
  have hdd := (deepDiffEmpty_iff_spec hwf1 hwf2).mpr hspec
  have hwf3 : WFCV (ConfigValue.seq
      [ConfigValue.num 1, ConfigValue.num 2, ConfigValue.num 3]) := by
    refine WFCV.seq _ ?_
    intro x hx
    fin_cases hx
    · exact WFCV.num 1
    · exact WFCV.num 2
    · exact WFCV.num 3
  have hwf4 : WFCV (ConfigValue.seq [ConfigValue.num 1, ConfigValue.num 2,
      ConfigValue.num 3, ConfigValue.num 3]) := by
    refine WFCV.seq _ ?_
    intro x hx
    fin_cases hx
    · exact WFCV.num 1
    · exact WFCV.num 2
    · exact WFCV.num 3
    · exact WFCV.num 3
  have hspec2 : DeepEqualIgnoreOrder
      (ConfigValue.seq [ConfigValue.num 1, ConfigValue.num 2, ConfigValue.num 3])
      (ConfigValue.seq [ConfigValue.num 1, ConfigValue.num 2, ConfigValue.num 3,
        ConfigValue.num 3]) := by
    refine DeepEqualIgnoreOrder.seq _ _ ?_ ?_
    · intro x hx
      fin_cases hx
      · exact .head _ _ _ (.num 1)
      · exact .tail _ _ _ (.head _ _ _ (.num 2))
      · exact .tail _ _ _ (.tail _ _ _ (.head _ _ _ (.num 3)))
    · intro y hy
      fin_cases hy
      · exact .head _ _ _ (.num 1)
      · exact .tail _ _ _ (.head _ _ _ (.num 2))
      · exact .tail _ _ _ (.tail _ _ _ (.head _ _ _ (.num 3)))
      · exact .tail _ _ _ (.tail _ _ _ (.head _ _ _ (.num 3)))
  have hdd2 := (deepDiffEmpty_iff_spec hwf3 hwf4).mpr hspec2
  refine ⟨hdd, by simp, ?_, hdd2, ?_⟩
  have hl1 : (lookupCV ("k")
      [("k", ConfigValue.seq [ConfigValue.num 1, ConfigValue.num 2])]).getD
      undefinedSentinel = ConfigValue.seq [ConfigValue.num 1, ConfigValue.num 2] := by
    simp [lookupCV]
  have hl2 : (lookupCV ("k")
      [("k", ConfigValue.seq [ConfigValue.num 2, ConfigValue.num 1])]).getD
      undefinedSentinel = ConfigValue.seq [ConfigValue.num 2, ConfigValue.num 1] := by
    simp [lookupCV]
  have h1 : (lookupCV ("k")
      [("k", ConfigValue.seq [ConfigValue.num 1, ConfigValue.num 2])]).getD
      undefinedSentinel ≠ undefinedSentinel := by
    rw [hl1]
    simp [undefinedSentinel]
  have h2 : (lookupCV ("k")
      [("k", ConfigValue.seq [ConfigValue.num 2, ConfigValue.num 1])]).getD
      undefinedSentinel ≠ undefinedSentinel := by
    rw [hl2]
    simp [undefinedSentinel]
  · rw [rowFor_class_present _ _ _ _ _ _ h1 h2, hl1, hl2, hdd]
    rfl
  · have hl3 : (lookupCV ("r")
        [("r", ConfigValue.seq [ConfigValue.num 1, ConfigValue.num 2,
          ConfigValue.num 3])]).getD undefinedSentinel =
        ConfigValue.seq [ConfigValue.num 1, ConfigValue.num 2,
          ConfigValue.num 3] := by
      simp [lookupCV]
    have hl4 : (lookupCV ("r")
        [("r", ConfigValue.seq [ConfigValue.num 1, ConfigValue.num 2,
          ConfigValue.num 3, ConfigValue.num 3])]).getD undefinedSentinel =
        ConfigValue.seq [ConfigValue.num 1, ConfigValue.num 2,
          ConfigValue.num 3, ConfigValue.num 3] := by
      simp [lookupCV]
    have h3 : (lookupCV ("r")
        [("r", ConfigValue.seq [ConfigValue.num 1, ConfigValue.num 2,
          ConfigValue.num 3])]).getD undefinedSentinel ≠ undefinedSentinel := by
      rw [hl3]
      simp [undefinedSentinel]
    have h4 : (lookupCV ("r")
        [("r", ConfigValue.seq [ConfigValue.num 1, ConfigValue.num 2,
          ConfigValue.num 3, ConfigValue.num 3])]).getD undefinedSentinel ≠
        undefinedSentinel := by
      rw [hl4]
      simp [undefinedSentinel]
    rw [rowFor_class_present _ _ _ _ _ _ h3 h4, hl3, hl4, hdd2]
    rfl

/-- Witness for claim C2: the theorem applied to two concrete well-formed
one-key documents holding the reordered lists, certifying that the Equal
classification coincides with the empty diff there. -/
theorem claim2_witness :
    WFCV (ConfigValue.seq [ConfigValue.num 1, ConfigValue.num 2]) ∧
    (deepDiffEmpty (ConfigValue.seq [ConfigValue.num 1, ConfigValue.num 2])
        (ConfigValue.seq [ConfigValue.num 1, ConfigValue.num 2]) = true ↔
      DeepEqualIgnoreOrder (ConfigValue.seq [ConfigValue.num 1, ConfigValue.num 2])
        (ConfigValue.seq [ConfigValue.num 1, ConfigValue.num 2])) := by
  have hwf : WFCV (ConfigValue.seq [ConfigValue.num 1, ConfigValue.num 2]) := by
    refine WFCV.seq _ ?_
    intro x hx
    rcases List.mem_cons.mp hx with rfl | hx
    · exact WFCV.num 1
    rcases List.mem_cons.mp hx with rfl | hx
    · exact WFCV.num 2
    simp at hx
  exact ⟨hwf, claim2_diff_empty_iff_ignore_order.1 _ _ hwf hwf⟩

/-- A filterMap over zipped lists is the same filterMap over the common
index range. -/
theorem zip_filterMap_eq_range {α β : Type} (d : α) (g : α → α → Option β) :
    ∀ (as bs : List α),
      (as.zip bs).filterMap (fun q => g q.1 q.2) =
        (List.range (min as.length bs.length)).filterMap
          (fun i => g (as.getD i d) (bs.getD i d)) := by
  intro as
  induction as with
  | nil => intro bs; simp
  | cons a as ih =>
    intro bs
    cases bs with
    | nil => simp
    | cons b bs =>
      have hmin : min (a :: as).length (b :: bs).length =
          min as.length bs.length + 1 := by
        simp [Nat.succ_min_succ]
      rw [hmin, List.range_succ_eq_map]
      simp only [List.zip_cons_cons, List.filterMap_cons, List.filterMap_map]
      have hfun : ((fun i => g ((a :: as).getD i d) ((b :: bs).getD i d)) ∘ Nat.succ) =
          (fun i => g (as.getD i d) (bs.getD i d)) := by
        funext i
        simp [Function.comp]
      cases hg : g a b with
      | none =>
        simp only [List.getD_cons_zero]
        rw [hg]
        rw [ih bs, hfun]
      | some v =>
        simp only [List.getD_cons_zero]
        rw [hg]
        rw [ih bs, hfun]

/-- Claim C4.  On two string values, the diff formatter splits both on
dots and emits one entry per common position whose segments differ, at
the unchanged key path; equal segments emit nothing and the extra
segments of the longer string emit nothing.  In particular "v1.2.3"
against "v1.3.3" yields exactly the one entry for segment 1, and
"v1.2.3" against "v1.2.3.9" yields no entry at all. -/
theorem claim4_dotted_string_diff :
    (∀ a b base : String,
      handle_nested_diffs (.str a) (.str b) base =
        (List.range (min (pySplit a '.').length (pySplit b '.').length)).filterMap
          (fun i =>
            if (pySplit a '.').getD i ("") = (pySplit b '.').getD i ("") then none
            else some (base ++ ": " ++ (pySplit a '.').getD i ("") ++ " => " ++
              (pySplit b '.').getD i ("")))) ∧
    handle_nested_diffs (.str ("v1.2.3")) (.str ("v1.3.3")) "k" = ["k: 2 => 3"] ∧
    handle_nested_diffs (.str ("v1.2.3")) (.str ("v1.2.3.9")) "k" = [] := by
  have hgen : ∀ a b base : String,
      handle_nested_diffs (.str a) (.str b) base =
        (List.range (min (pySplit a '.').length (pySplit b '.').length)).filterMap
          (fun i =>
            if (pySplit a '.').getD i ("") = (pySplit b '.').getD i ("") then none
            else some (base ++ ": " ++ (pySplit a '.').getD i ("") ++ " => " ++
              (pySplit b '.').getD i (""))) := by
    intro a b base
    rw [show handle_nested_diffs (.str a) (.str b) base =
        ((pySplit a '.').zip (pySplit b '.')).filterMap (fun q =>
          if q.1 = q.2 then none
          else some (base ++ ": " ++ q.1 ++ " => " ++ q.2)) from by
      simp [handle_nested_diffs]]
    exact zip_filterMap_eq_range ("")
      (fun x y => if x = y then none else some (base ++ ": " ++ x ++ " => " ++ y))
      (pySplit a '.') (pySplit b '.')
  refine ⟨hgen, ?_, ?_⟩
  · rw [hgen]
    decide
  · rw [hgen]
    decide

/-- getD through drop shifts the index. -/
theorem getD_drop {α : Type} (d : α) :
    ∀ (l : List α) (n j : Nat), (l.drop n).getD j d = l.getD (n + j) d := by
  intro l
  induction l with
  | nil => intro n j; simp
  | cons x xs ih =>
    intro n j
    cases n with
    | zero => simp
    | succ n =>
      rw [List.drop_succ_cons, ih n j]
      have : xs.getD (n + j) d = (x :: xs).getD (n + 1 + j) d := by
        have harith : n + 1 + j = (n + j) + 1 := by omega
        rw [harith, List.getD_cons_succ]
      rw [this]

/-- The trailing-element loop is a map over the missing index range. -/
theorem extraEntries_eq_range_map (base suffix : String) :
    ∀ (vs : List ConfigValue) (start : Nat),
      extraEntries base suffix start vs =
        (List.range vs.length).map (fun j =>
          nestedKeyIdx base (start + j) ++ ": " ++ pyStr (vs.getD j .null) ++ suffix) := by
  intro vs
  induction vs with
  | nil => intro start; simp [extraEntries]
  | cons v vs ih =>
    intro start
    rw [show (v :: vs).length = vs.length + 1 from rfl, List.range_succ_eq_map]
    rw [List.map_cons, List.map_map]
    simp only [extraEntries]
    refine congrArg₂ List.cons ?_ ?_
    · simp
    · rw [ih (start + 1)]
      apply List.map_congr_left
      intro j _
      have harith : start + 1 + j = start + (j + 1) := by omega
      simp only [Function.comp, List.getD_cons_succ, harith]

/-- The enumerate(zip(old, new)) loop is a flatMap over the common index
range, recursing on mismatching pairs. -/
theorem hndZipped_eq_range (base : String) :
    ∀ (xs ys : List ConfigValue) (i : Nat),
      hndZipped base i xs ys =
        (List.range (min xs.length ys.length)).flatMap (fun j =>
          if pyEq (xs.getD j .null) (ys.getD j .null) then []
          else handle_nested_diffs (xs.getD j .null) (ys.getD j .null)
            (nestedKeyIdx base (i + j))) := by
  intro xs
  induction xs with
  | nil => intro ys i; simp [hndZipped]
  | cons x xs ih =>
    intro ys i
    cases ys with
    | nil => simp [hndZipped]
    | cons y ys =>
      have hmin : min (x :: xs).length (y :: ys).length =
          min xs.length ys.length + 1 := by
        simp [Nat.succ_min_succ]
      rw [hmin, List.range_succ_eq_map, List.flatMap_cons, List.flatMap_map]
      simp only [hndZipped]
      refine congrArg₂ (· ++ ·) ?_ ?_
      · simp
      · rw [ih ys (i + 1)]
        refine congrArg _ ?_
        funext j
        have harith : i + (j + 1) = i + 1 + j := by omega
        simp only [List.getD_cons_succ, Nat.succ_eq_add_one, harith]

/-- Claim C6.  On two list values, the diff formatter compares elements
pairwise at matching indices up to the shorter length, recursing on each
mismatching pair, and then emits each trailing element of the longer list
wholesale as one "was added" entry (right longer) or one "was removed"
entry (left longer), indexed by its position. -/
theorem claim6_list_branch_shape :
    ∀ (xs ys : List ConfigValue) (base : String),
      handle_nested_diffs (.seq xs) (.seq ys) base =
        (List.range (min xs.length ys.length)).flatMap (fun i =>
          if pyEq (xs.getD i ConfigValue.null) (ys.getD i ConfigValue.null) then []
          else handle_nested_diffs (xs.getD i ConfigValue.null)
            (ys.getD i ConfigValue.null) (nestedKeyIdx base i)) ++
        (if xs.length < ys.length then
          (List.range (ys.length - xs.length)).map (fun j =>
            nestedKeyIdx base (xs.length + j) ++ ": " ++
              pyStr (ys.getD (xs.length + j) ConfigValue.null) ++ " was added")
        else if ys.length < xs.length then
          (List.range (xs.length - ys.length)).map (fun j =>
            nestedKeyIdx base (ys.length + j) ++ ": " ++
              pyStr (xs.getD (ys.length + j) ConfigValue.null) ++ " was removed")
        else []) := by
  intro xs ys base
  rw [show handle_nested_diffs (.seq xs) (.seq ys) base =
      hndZipped base 0 xs ys ++
        (if xs.length < ys.length then
          extraEntries base (" was added") xs.length (ys.drop xs.length)
        else if ys.length < xs.length then
          extraEntries base (" was removed") ys.length (xs.drop ys.length)
        else []) from by simp [handle_nested_diffs]]
  refine congrArg₂ (· ++ ·) ?_ ?_
  · rw [hndZipped_eq_range]
    have hfun : (fun j => if pyEq (xs.getD j ConfigValue.null)
          (ys.getD j ConfigValue.null) then []
        else handle_nested_diffs (xs.getD j ConfigValue.null)
          (ys.getD j ConfigValue.null) (nestedKeyIdx base (0 + j))) =
        (fun i => if pyEq (xs.getD i ConfigValue.null)
            (ys.getD i ConfigValue.null) then []
          else handle_nested_diffs (xs.getD i ConfigValue.null)
            (ys.getD i ConfigValue.null) (nestedKeyIdx base i)) := by
      funext j
      simp only [Nat.zero_add]
    rw [hfun]
  · split_ifs with h1 h2
    · rw [extraEntries_eq_range_map, List.length_drop]
      apply List.map_congr_left
      intro j _
      rw [getD_drop]
    · rw [extraEntries_eq_range_map, List.length_drop]
      apply List.map_congr_left
      intro j _
      rw [getD_drop]
    · rfl

/-- A line with no equals sign fails to split. -/
theorem splitFirstAux_none_iff : ∀ cs : List Char,
    splitFirstAux cs = none ↔ '=' ∉ cs := by
  intro cs
  induction cs with
  | nil => simp [splitFirstAux]
  | cons c rest ih =>
    by_cases h : c = '='
    · subst h
      simp [splitFirstAux]
    · simp only [splitFirstAux, if_neg h, List.mem_cons]
      cases hs : splitFirstAux rest with
      | none =>
        have h1 : '=' ∉ rest := ih.mp hs
        simp [hs]
        constructor
        · exact fun hh => h hh.symm
        · exact h1
      | some q =>
        have h1 : '=' ∈ rest := by
          by_contra hmem
          rw [← ih] at hmem
          rw [hs] at hmem
          exact Option.noConfusion hmem
        simp [hs]
        exact fun _ => h1

/-- Splitting at the first equals sign of pre ++ "=" ++ post recovers pre
and post when pre has no equals sign of its own. -/
theorem splitFirstAux_append : ∀ (pre post : List Char), '=' ∉ pre →
    splitFirstAux (pre ++ '=' :: post) = some (pre, post) := by
  intro pre
  induction pre with
  | nil => intro post _; simp [splitFirstAux]
  | cons c rest ih =>
    intro post hmem
    have hc : c ≠ '=' := fun h => hmem (by simp [h])
    have hrest : '=' ∉ rest := fun h => hmem (by simp [h])
    simp only [List.cons_append, splitFirstAux, if_neg hc]
    rw [show rest.append ('=' :: post) = rest ++ '=' :: post from rfl]
    rw [ih post hrest]
    rfl

/-- Claim C7.  parse_properties skips blank lines and lines whose first
non-whitespace character is a pound sign; a remaining line without an
equals sign aborts the parse with a FormatError; a line pre=post whose
key part has no equals sign of its own splits at the FIRST equals sign
with both parts kept whole; and the concrete line "key=value=extra"
parses to the single entry key "key", value "value=extra". -/
theorem claim7_parse_properties_line_handling :
    (∀ (acc : List (String × String)) (line : String),
      (pyStrip line = "" ∨ pyStartsWith (pyStrip line) "#" = true) →
      parsePropLine acc line = .ok acc) ∧
    (∀ (acc : List (String × String)) (line : String),
      pyStrip line ≠ "" → pyStartsWith (pyStrip line) "#" = false →
      '=' ∉ (pyStrip line).data →
      parsePropLine acc line = .error .formatError) ∧
    (∀ pre post : String, '=' ∉ pre.data →
      splitFirstEq (pre ++ "=" ++ post) = some (pre, post)) ∧
    parsePropText ("key=value=extra") = .ok [("key", "value=extra")] := by
  refine ⟨?_, ?_, ?_, by rfl⟩
  · intro acc line h
    unfold parsePropLine
    rcases h with h | h
    · simp [h]
    · by_cases hb : pyStrip line = ""
      · simp [hb]
      · simp [hb, h]
  · intro acc line hne hpound hmem
    unfold parsePropLine
    have hsplit : splitFirstEq (pyStrip line) = none := by
      unfold splitFirstEq
      rw [(splitFirstAux_none_iff _).mpr hmem]
      rfl
    simp [hne, hpound, hsplit]
  · intro pre post hmem
    unfold splitFirstEq
    have hdata : (pre ++ "=" ++ post).data = pre.data ++ '=' :: post.data := by
      simp [String.data_append]
    rw [hdata, splitFirstAux_append pre.data post.data hmem]
    have hp : ∀ s : String, String.mk s.data = s := fun s => by
      cases s
      rfl
    simp [hp]

/-- Witness for claim C7: concrete blank, comment, equals-free and
first-equals-split lines, with the theorem applied to each. -/
theorem claim7_witness :
    (pyStrip ("   ") = "" ∨ pyStartsWith (pyStrip ("   ")) "#" = true) ∧
    parsePropLine [] "   " = .ok [] ∧
    (pyStrip ("# comment") = "" ∨ pyStartsWith (pyStrip ("# comment")) "#" = true) ∧
    parsePropLine [] "# comment" = .ok [] ∧
    pyStrip ("noequals") ≠ "" ∧
    pyStartsWith (pyStrip ("noequals")) "#" = false ∧
    '=' ∉ (pyStrip ("noequals")).data ∧
    parsePropLine [] "noequals" = .error .formatError ∧
    '=' ∉ ("key" : String).data ∧
    splitFirstEq ("key" ++ "=" ++ "value=extra") = some ("key", "value=extra") := by
  refine ⟨Or.inl (by decide), ?_, Or.inr (by decide), ?_, by decide, by decide,
    by decide, ?_, by decide, ?_⟩
  · exact claim7_parse_properties_line_handling.1 [] "   " (Or.inl (by decide))
  · exact claim7_parse_properties_line_handling.1 [] "# comment" (Or.inr (by decide))
  · exact claim7_parse_properties_line_handling.2.1 [] "noequals" (by decide)
      (by decide) (by decide)
  · exact claim7_parse_properties_line_handling.2.2.1 ("key") "value=extra" (by decide)

/-- Claim C8.  Each of the three parsers fails with NotFoundError when
the file cannot be opened (returning no document of any kind), and
parse_json propagates the FormatError of a malformed JSON body. -/
theorem claim8_parser_failure_modes :
    (∀ (decodeJson : String → Except ParseErr ConfigValue)
        (fs : String → Option String) (path : String),
      fs path = none → parse_json decodeJson fs path = .error .notFound) ∧
    (∀ (hclLoad : String → Except ParseErr (List (String × ConfigValue)))
        (fs : String → Option String) (path : String),
      fs path = none → parse_tfvars hclLoad fs path = .error .notFound) ∧
    (∀ (fs : String → Option String) (path : String),
      fs path = none → parse_properties fs path = .error .notFound) ∧
    (∀ (decodeJson : String → Except ParseErr ConfigValue)
        (fs : String → Option String) (path text : String),
      fs path = some text → decodeJson text = .error .formatError →
      parse_json decodeJson fs path = .error .formatError) := by
  refine ⟨?_, ?_, ?_, ?_⟩
  · intro decodeJson fs path h
    unfold parse_json
    rw [h]
  · intro hclLoad fs path h
    unfold parse_tfvars
    rw [h]
  · intro fs path h
    unfold parse_properties
    rw [h]
  · intro decodeJson fs path text hfs hdec
    unfold parse_json
    rw [hfs]
    exact hdec

/-- Witness for claim C8: the empty filesystem and a constantly failing
JSON decoder, with the theorem applied at a concrete path. -/
theorem claim8_witness :
    ((fun _ : String => (none : Option String)) "missing.json" = none) ∧
    parse_json (fun _ => .error .formatError)
      (fun _ => none) "missing.json" = .error .notFound ∧
    parse_tfvars (fun _ => .error .formatError)
      (fun _ => none) "missing.tfvars" = .error .notFound ∧
    parse_properties (fun _ => none) "missing.properties" = .error .notFound ∧
    ((fun _ : String => (some ("not json") : Option String)) "bad.json" =
      some ("not json")) ∧
    ((fun _ : String => (.error .formatError :
        Except ParseErr ConfigValue)) "not json" = .error .formatError) ∧
    parse_json (fun _ => .error .formatError)
      (fun _ => some ("not json")) "bad.json" = .error .formatError := by
  refine ⟨rfl, ?_, ?_, ?_, rfl, rfl, ?_⟩
  · exact claim8_parser_failure_modes.1 (fun _ => .error .formatError)
      (fun _ => none) "missing.json" rfl
  · exact claim8_parser_failure_modes.2.1 (fun _ => .error .formatError)
      (fun _ => none) "missing.tfvars" rfl
  · exact claim8_parser_failure_modes.2.2.1 (fun _ => none) "missing.properties" rfl
  · exact claim8_parser_failure_modes.2.2.2 (fun _ => .error .formatError)
      (fun _ => some ("not json")) "bad.json" "not json" rfl rfl

/-- Keys after a dict assignment are the old keys plus possibly the new
one. -/
theorem dictInsert_mem_keys (k v : String) :
    ∀ (d : List (String × String)) (x : String),
      x ∈ (dictInsert k v d).map Prod.fst ↔ (x = k ∨ x ∈ d.map Prod.fst) := by
  intro d
  induction d with
  | nil => intro x; simp [dictInsert]
  | cons p d ih =>
    intro x
    obtain ⟨k1, v1⟩ := p
    by_cases h : k1 = k
    · subst h
      have hred : dictInsert k1 v ((k1, v1) :: d) = (k1, v) :: d := by
        simp [dictInsert]
      rw [hred]
      simp only [List.map_cons, List.mem_cons]
      tauto
    · simp only [dictInsert, if_neg h, List.map_cons, List.mem_cons, ih]
      tauto

/-- Dict assignment preserves distinctness of keys. -/
theorem dictInsert_nodup (k v : String) :
    ∀ d : List (String × String),
      (d.map Prod.fst).Nodup → ((dictInsert k v d).map Prod.fst).Nodup := by
  intro d
  induction d with
  | nil => intro _; simp [dictInsert]
  | cons p d ih =>
    intro hn
    obtain ⟨k1, v1⟩ := p
    rw [List.map_cons] at hn
    have h1 := (List.nodup_cons.mp hn).1
    have h2 := (List.nodup_cons.mp hn).2
    by_cases h : k1 = k
    · subst h
      simpa [dictInsert] using hn
    · simp only [dictInsert, if_neg h, List.map_cons]
      rw [List.nodup_cons]
      refine ⟨?_, ih h2⟩
      intro hmem
      rcases (dictInsert_mem_keys k v d k1).mp hmem with h3 | h3
      · exact h h3
      · exact h1 h3

/-- Dict assignment binds the assigned key to the new value. -/
theorem lookupStr_dictInsert_self (k v : String) :
    ∀ d : List (String × String), lookupStr k (dictInsert k v d) = some v := by
  intro d
  induction d with
  | nil => simp [dictInsert, lookupStr]
  | cons p d ih =>
    obtain ⟨k1, v1⟩ := p
    by_cases h : k1 = k
    · subst h
      simp [dictInsert, lookupStr]
    · simp [dictInsert, lookupStr, h, ih]

/-- Dict assignment leaves other keys untouched. -/
theorem lookupStr_dictInsert_ne (k v k2 : String) (hne : k2 ≠ k) :
    ∀ d : List (String × String),
      lookupStr k2 (dictInsert k v d) = lookupStr k2 d := by
  intro d
  induction d with
  | nil => simp [dictInsert, lookupStr, Ne.symm hne]
  | cons p d ih =>
    obtain ⟨k1, v1⟩ := p
    by_cases h : k1 = k
    · subst h
      simp [dictInsert, lookupStr, Ne.symm hne]
    · simp [dictInsert, lookupStr, h, ih]

/-- A successful line step either skipped the line or performed the dict
assignment its entry describes. -/
theorem parsePropLine_cases (acc acc1 : List (String × String)) (l : String)
    (h : parsePropLine acc l = .ok acc1) :
    (lineEntry l = none ∧ acc1 = acc) ∨
    (∃ k v, lineEntry l = some (k, v) ∧ acc1 = dictInsert k v acc) := by
  unfold parsePropLine at h
  unfold lineEntry
  by_cases hb : pyStrip l = ""
  · simp [hb] at h ⊢
    exact h.symm
  · by_cases hp : pyStartsWith (pyStrip l) "#" = true
    · simp [hb, hp] at h ⊢
      exact h.symm
    · cases hs : splitFirstEq (pyStrip l) with
      | none => simp [hb, hp, hs] at h
      | some q =>
        obtain ⟨a, b⟩ := q
        simp [hb, hp, hs] at h ⊢
        exact ⟨pyStrip a, pyStrip b, ⟨rfl, rfl⟩, h.symm⟩

/-- Processing an appended line list is sequential composition. -/
theorem parsePropLines_append :
    ∀ (as bs : List String) (acc : List (String × String)),
      parsePropLines acc (as ++ bs) =
        match parsePropLines acc as with
        | .error e => .error e
        | .ok acc1 => parsePropLines acc1 bs := by
  intro as
  induction as with
  | nil => intro bs acc; simp [parsePropLines]
  | cons l ls ih =>
    intro bs acc
    rw [List.cons_append]
    simp only [parsePropLines]
    cases h : parsePropLine acc l with
    | error e => rfl
    | ok acc1 => exact ih bs acc1

/-- A successful parse keeps the dict keys distinct. -/
theorem parsePropLines_nodup :
    ∀ (lines : List String) (acc doc : List (String × String)),
      (acc.map Prod.fst).Nodup → parsePropLines acc lines = .ok doc →
      (doc.map Prod.fst).Nodup := by
  intro lines
  induction lines with
  | nil =>
    intro acc doc hn h
    simp [parsePropLines] at h
    exact h ▸ hn
  | cons l ls ih =>
    intro acc doc hn h
    simp only [parsePropLines] at h
    cases hl : parsePropLine acc l with
    | error e => rw [hl] at h; exact Except.noConfusion h
    | ok acc1 =>
      rw [hl] at h
      rcases parsePropLine_cases acc acc1 l hl with ⟨_, heq⟩ | ⟨k, v, _, heq⟩
      · rw [heq] at h
        exact ih acc doc hn h
      · rw [heq] at h
        exact ih (dictInsert k v acc) doc (dictInsert_nodup k v acc hn) h

/-- Lines that never bind a key leave its lookup unchanged. -/
theorem parsePropLines_lookup_unchanged :
    ∀ (lines : List String) (acc doc : List (String × String)) (k : String),
      parsePropLines acc lines = .ok doc →
      (∀ l ∈ lines, ∀ w, lineEntry l ≠ some (k, w)) →
      lookupStr k doc = lookupStr k acc := by
  intro lines
  induction lines with
  | nil =>
    intro acc doc k h _
    simp [parsePropLines] at h
    rw [h]
  | cons l ls ih =>
    intro acc doc k h hno
    simp only [parsePropLines] at h
    cases hl : parsePropLine acc l with
    | error e => rw [hl] at h; exact Except.noConfusion h
    | ok acc1 =>
      rw [hl] at h
      have htail := ih acc1 doc k h (fun l2 h2 w => hno l2 (by simp [h2]) w)
      rcases parsePropLine_cases acc acc1 l hl with ⟨_, heq⟩ | ⟨k1, v1, he, heq⟩
      · rw [heq] at htail
        exact htail
      · rw [heq] at htail
        rw [htail]
        have hk1 : k1 ≠ k := by
          intro hk
          rw [hk] at he
          exact hno l (by simp) v1 he
        exact lookupStr_dictInsert_ne k1 v1 k (Ne.symm hk1) acc

/-- Claim C10.  A successfully parsed properties document never holds two
entries for one key, and when the same key is bound on several lines the
document maps it to the trimmed value of the last such line: later lines
overwrite earlier ones. -/
theorem claim10_duplicate_keys_last_wins :
    (∀ (text : String) (doc : List (String × String)),
      parsePropText text = .ok doc → (doc.map Prod.fst).Nodup) ∧
    (∀ (text : String) (doc : List (String × String))
        (pre post : List String) (l k v : String),
      pySplit text (Char.ofNat 10) = pre ++ l :: post →
      lineEntry l = some (k, v) →
      (∀ l2 ∈ post, ∀ w, lineEntry l2 ≠ some (k, w)) →
      parsePropText text = .ok doc →
      lookupStr k doc = some v) := by
  constructor
  · intro text doc h
    exact parsePropLines_nodup _ [] doc (by simp) h
  · intro text doc pre post l k v hsplit hentry hno h
    unfold parsePropText at h
    rw [hsplit, parsePropLines_append] at h
    cases hpre : parsePropLines [] pre with
    | error e => rw [hpre] at h; exact Except.noConfusion h
    | ok acc1 =>
      rw [hpre] at h
      simp only [parsePropLines] at h
      cases hl : parsePropLine acc1 l with
      | error e => rw [hl] at h; exact Except.noConfusion h
      | ok acc2 =>
        rw [hl] at h
        have hlook := parsePropLines_lookup_unchanged post acc2 doc k h hno
        rcases parsePropLine_cases acc1 acc2 l hl with ⟨hnone, _⟩ | ⟨k1, v1, he, heq⟩
        · rw [hnone] at hentry
          exact Option.noConfusion hentry
        · rw [he] at hentry
          injection hentry with hkv
          injection hkv with hk hv
          rw [heq, hk, hv] at hlook
          rw [hlook]
          exact lookupStr_dictInsert_self k v acc1

/-- Witness for claim C10: the two-line text binding the key a twice
parses to a document whose only binding for a is the later value. -/
theorem claim10_witness :
    pySplit ("a=1\na=2") (Char.ofNat 10) = ["a=1"] ++ "a=2" :: [] ∧
    lineEntry ("a=2") = some ("a", "2") ∧
    parsePropText ("a=1\na=2") = .ok [("a", "2")] ∧
    (["a=1"] ++ "a=2" :: []).length = 2 ∧
    lookupStr ("a") [("a", "2")] = some ("2") ∧
    ([("a", "2")].map Prod.fst).Nodup := by
  refine ⟨by decide, by decide, by rfl, by decide, ?_, ?_⟩
  · have h := claim10_duplicate_keys_last_wins.2 ("a=1\na=2") [("a", "2")]
      ["a=1"] [] "a=2" "a" "2" (by decide) (by decide)
      (fun l2 h2 w => absurd h2 (by simp)) (by rfl)
    exact h
  · exact claim10_duplicate_keys_last_wins.1 ("a=1\na=2") [("a", "2")] (by rfl)
